import Mathlib

/-!
Shallow embedding of the client-side replicated state engine of
`src/src/vibi.ts` (class `Vibi<S, P>`), together with proofs of the
spec-level properties of its timeline, snapshot cache and render path.

Modelling conventions:
* JS `Map` objects are modelled as association lists (`List (κ × α)`)
  with JS `Map` semantics: `get` returns the entry for a key,
  `set` replaces in place or appends, `delete` removes the entry,
  `size` is the length.  Keys are unique by construction.
* JS numbers holding times/ticks/indices are modelled as `ℤ`
  (the spec fixes times to integer milliseconds); JS numbers that can
  be fractional (`snapshot_stride`/`snapshot_count` constructor inputs,
  RTT, `tick_ms`) are modelled as `ℚ`.  `Math.floor`/`Math.ceil` become
  `Int.fdiv` / `⌈·⌉`.
* Mutation of `this` is modelled by explicit state passing: a method
  returning `x` while mutating becomes a function to `x × Vibi`.
* `while`/`for` loops are modelled by structural recursion on the
  explicit iteration count of the loop.
* The external `client_api` is modelled by its two pure observations
  used by the engine (`server_time()`, `ping()`); `ping() = Infinity`
  is `none`.
-/

/-- JS `Map.get`: the value stored at key `k`, if present. -/
def mapGet {κ α : Type} [DecidableEq κ] (m : List (κ × α)) (k : κ) : Option α :=
  match m with
  | [] => none
  | (k', v) :: rest => if k' = k then some v else mapGet rest k

/-- JS `Map.set`: replace the entry for `k` in place, or append it. -/
def mapSet {κ α : Type} [DecidableEq κ] (m : List (κ × α)) (k : κ) (v : α) : List (κ × α) :=
  match m with
  | [] => [(k, v)]
  | (k', v') :: rest => if k' = k then (k, v) :: rest else (k', v') :: mapSet rest k v

/-- JS `Map.delete`: remove the entry for `k` (keys are unique). -/
def mapDelete {κ α : Type} [DecidableEq κ] (m : List (κ × α)) (k : κ) : List (κ × α) :=
  match m with
  | [] => []
  | (k', v') :: rest => if k' = k then rest else (k', v') :: mapDelete rest k

/-- A `Post` as delivered by the broker (vibi.ts lines 64-71). -/
structure Post (P : Type) where
  room : String
  index : ℤ
  server_time : ℤ
  client_time : ℤ
  name : Option String
  data : P
deriving DecidableEq

/-- A timeline bucket: the posts taking effect at one tick
(vibi.ts lines 73-76). -/
structure TimelineBucket (P : Type) where
  remote : List (Post P)
  loc : List (Post P)
deriving DecidableEq

/-- The engine state of `class Vibi<S, P>` (vibi.ts lines 87-105).
`api_server_time` and `api_ping` stand for the values the injected
`client_api.server_time()` / `client_api.ping()` calls return. -/
structure Vibi (S P : Type) where
  room : String
  init : S
  on_tick : S → S
  on_post : P → S → S
  smooth : S → S → S
  tick_rate : ℤ
  tolerance : ℤ
  remote_posts : List (ℤ × Post P)
  local_posts : List (String × Post P)
  timeline : List (ℤ × TimelineBucket P)
  cache_enabled : Bool
  snapshot_stride : ℤ
  snapshot_count : ℤ
  snapshots : List (ℤ × S)
  snapshot_start_tick : Option ℤ
  initial_time_value : Option ℤ
  initial_tick_value : Option ℤ
  api_server_time : ℤ
  api_ping : Option ℚ

namespace Vibi

variable {S P : Type}

/-- `official_time` (vibi.ts lines 108-114). -/
def official_time (e : Vibi S P) (post : Post P) : ℤ :=
  if post.client_time ≤ post.server_time - e.tolerance then
    post.server_time - e.tolerance
  else
    post.client_time

/-- `time_to_tick` (vibi.ts lines 401-403): `Math.floor((t * tick_rate) / 1000)`. -/
def time_to_tick (e : Vibi S P) (server_time : ℤ) : ℤ :=
  Int.fdiv (server_time * e.tick_rate) 1000

/-- `official_tick` (vibi.ts lines 117-119). -/
def official_tick (e : Vibi S P) (post : Post P) : ℤ :=
  e.time_to_tick (e.official_time post)

/-- The bucket read by `get_bucket` (vibi.ts lines 122-129); a missing
bucket is the empty bucket (the `set` into the map is fused into the
callers, which immediately overwrite the bucket's contents). -/
def getBucketD (e : Vibi S P) (tick : ℤ) : TimelineBucket P :=
  (mapGet e.timeline tick).getD ⟨[], []⟩

/-- The comparator `(a, b) => a.index - b.index` used on `bucket.remote`. -/
def idxLE (a b : Post P) : Prop := a.index ≤ b.index

instance : DecidableRel (idxLE (P := P)) := fun a b => by
  unfold idxLE; infer_instance

instance : IsTotal (Post P) idxLE := ⟨fun a b => Int.le_total a.index b.index⟩

instance : IsTrans (Post P) idxLE := ⟨fun _ _ _ h h' => le_trans h h'⟩

/-- `bucket.remote.sort((a, b) => a.index - b.index)` — a stable sort
by ascending `index`. -/
def sortByIndex (l : List (Post P)) : List (Post P) :=
  List.insertionSort idxLE l

/-- `insert_remote_post` (vibi.ts lines 132-136): push into the tick's
bucket and keep the bucket sorted by `index`. -/
def insert_remote_post (e : Vibi S P) (post : Post P) (tick : ℤ) : Vibi S P :=
  let bucket := e.getBucketD tick
  { e with timeline :=
      mapSet e.timeline tick { bucket with remote := sortByIndex (bucket.remote ++ [post]) } }

/-- One pass of the loop `for (let t = end_tick; t >= tick; t -= stride)
this.snapshots.delete(t)` in `invalidate_from_tick`, recursing on the
iteration count of the loop. -/
def delSnapsAux (m : List (ℤ × S)) (t stride : ℤ) : ℕ → List (ℤ × S)
  | 0 => m
  | n + 1 => delSnapsAux (mapDelete m t) (t - stride) stride n

/-- The number of iterations of a loop running from `t` down to `tick`
(inclusive) in steps of `stride` (none if `stride ≤ 0`: the JS loop
would never terminate, which never happens since `stride ≥ 1`). -/
def downCount (tick stride t : ℤ) : ℕ :=
  if stride ≤ 0 ∨ t < tick then 0 else (t - tick).toNat / stride.toNat + 1

/-- `invalidate_from_tick` (vibi.ts lines 139-162). -/
def invalidate_from_tick (e : Vibi S P) (tick : ℤ) : Vibi S P :=
  if e.cache_enabled = false then e
  else
    match e.snapshot_start_tick with
    | none => e
    | some start_tick =>
      if tick < start_tick then e
      else if e.snapshots.length = 0 then e
      else
        let stride := e.snapshot_stride
        let end_tick := start_tick + ((e.snapshots.length : ℤ) - 1) * stride
        if end_tick < tick then e
        else if tick ≤ start_tick then { e with snapshots := [] }
        else
          let snaps := delSnapsAux e.snapshots end_tick stride (downCount tick stride end_tick)
          { e with snapshots := snaps }

/-- The loop body of `advance_state`, recursing on the number of
remaining ticks. `apply_tick` is inlined below as `applyTick`. -/
def advanceAux (applyT : S → ℤ → S) (state : S) (from_tick : ℤ) : ℕ → S
  | 0 => state
  | n + 1 => advanceAux applyT (applyT state (from_tick + 1)) (from_tick + 1) n

/-- `apply_tick` (vibi.ts lines 325-337): `on_tick`, then the tick's
remote posts in bucket order, then its local posts in bucket order. -/
def applyTick (e : Vibi S P) (state : S) (tick : ℤ) : S :=
  let next := e.on_tick state
  match mapGet e.timeline tick with
  | none => next
  | some bucket =>
    List.foldl (fun st p => e.on_post p.data st)
      (List.foldl (fun st p => e.on_post p.data st) next bucket.remote)
      bucket.loc

/-- `advance_state` (vibi.ts lines 165-171): apply ticks
`(from_tick, to_tick]` in increasing order. -/
def advance_state (e : Vibi S P) (state : S) (from_tick to_tick : ℤ) : S :=
  advanceAux e.applyTick state from_tick (to_tick - from_tick).toNat

/-- `prune_before_tick` (vibi.ts lines 174-193): drop timeline buckets
and posts older than `prune_tick` (delete-while-iterating over a JS map
is a filter). -/
def prune_before_tick (e : Vibi S P) (prune_tick : ℤ) : Vibi S P :=
  if e.cache_enabled = false then e
  else
    { e with
      timeline := e.timeline.filter (fun pr => !decide (pr.1 < prune_tick)),
      remote_posts := e.remote_posts.filter (fun pr => !decide (e.official_tick pr.2 < prune_tick)),
      local_posts := e.local_posts.filter (fun pr => !decide (e.official_tick pr.2 < prune_tick)) }

/-- The number of iterations of a loop running from `next` up to
`target` (inclusive) in steps of `stride` (none if `stride ≤ 0`). -/
def upCount (next target stride : ℤ) : ℕ :=
  if stride ≤ 0 ∨ target < next then 0 else (target - next).toNat / stride.toNat + 1

/-- The loop `for (; next_tick <= target_tick; next_tick += stride)` of
`ensure_snapshots` (vibi.ts lines 230-234), recursing on its iteration
count: advance the state to the next snapshot tick and store it. -/
def fillAux (e : Vibi S P) (snaps : List (ℤ × S)) (state : S) (current_tick next_tick stride : ℤ) :
    ℕ → List (ℤ × S)
  | 0 => snaps
  | n + 1 =>
    let state' := e.advance_state state current_tick next_tick
    fillAux e (mapSet snaps next_tick state') state' next_tick (next_tick + stride) stride n

/-- The loop `for (let t = start_tick; t < drop_until; t += stride)` of
`ensure_snapshots` (vibi.ts lines 240-242), recursing on its iteration
count: drop the oldest snapshots. -/
def dropAux (snaps : List (ℤ × S)) (t stride : ℤ) : ℕ → List (ℤ × S)
  | 0 => snaps
  | n + 1 => dropAux (mapDelete snaps t) (t + stride) stride n

/-- The number of iterations of a loop running from `t` while
`t < drop_until` in steps of `stride` (none if `stride ≤ 0`). -/
def strictUpCount (t drop_until stride : ℤ) : ℕ :=
  if stride ≤ 0 ∨ drop_until ≤ t then 0 else (drop_until - t - 1).toNat / stride.toNat + 1

/-- `ensure_snapshots` (vibi.ts lines 196-248). -/
def ensure_snapshots (e : Vibi S P) (at_tick initial_tick : ℤ) : Vibi S P :=
  if e.cache_enabled = false then e
  else
    let e :=
      if e.snapshot_start_tick = none then { e with snapshot_start_tick := some initial_tick }
      else e
    match e.snapshot_start_tick with
    | none => e
    | some start_tick =>
      if at_tick < start_tick then e
      else
        let stride := e.snapshot_stride
        let target_tick := start_tick + Int.fdiv (at_tick - start_tick) stride * stride
        let sz := e.snapshots.length
        let state :=
          if sz = 0 then e.init
          else (mapGet e.snapshots (start_tick + ((sz : ℤ) - 1) * stride)).getD e.init
        let current_tick :=
          if sz = 0 then start_tick - 1 else start_tick + ((sz : ℤ) - 1) * stride
        let next_tick := if sz = 0 then start_tick else current_tick + stride
        let snaps :=
          fillAux e e.snapshots state current_tick next_tick stride
            (upCount next_tick target_tick stride)
        let count := (snaps.length : ℤ)
        if e.snapshot_count < count then
          let overflow := count - e.snapshot_count
          let drop_until := start_tick + overflow * stride
          let snaps' := dropAux snaps start_tick stride (strictUpCount start_tick drop_until stride)
          let e' := { e with snapshots := snaps', snapshot_start_tick := some drop_until }
          e'.prune_before_tick drop_until
        else
          let e' := { e with snapshots := snaps, snapshot_start_tick := some start_tick }
          e'.prune_before_tick start_tick

/-- `add_remote_post` (vibi.ts lines 251-275). -/
def add_remote_post (e : Vibi S P) (post : Post P) : Vibi S P :=
  let tick := e.official_tick post
  let e :=
    if post.index = 0 ∧ e.initial_time_value = none then
      let t := e.official_time post
      { e with initial_time_value := some t, initial_tick_value := some (e.time_to_tick t) }
    else e
  let before_window :=
    e.cache_enabled = true ∧ ∃ st, e.snapshot_start_tick = some st ∧ tick < st
  if before_window then e
  else if (mapGet e.remote_posts post.index).isSome then e
  else
    let e := { e with remote_posts := mapSet e.remote_posts post.index post }
    let e := e.insert_remote_post post tick
    e.invalidate_from_tick tick

/-- Remove the first list element equal to `p` (`indexOf` + `splice`). -/
def removeFirst [DecidableEq P] (p : Post P) : List (Post P) → List (Post P)
  | [] => []
  | q :: qs => if q = p then qs else q :: removeFirst p qs

/-- Remove the first list element satisfying `f` (`findIndex` + `splice`);
if none does, the list is unchanged. -/
def removeFirstBy (f : Post P → Bool) : List (Post P) → List (Post P)
  | [] => []
  | q :: qs => if f q then qs else q :: removeFirstBy f qs

/-- `remove_local_post` (vibi.ts lines 297-322).  JS `indexOf` compares
by object identity; the post looked up in `local_posts` is the object
pushed into the bucket, modelled here by structural equality. -/
def remove_local_post [DecidableEq P] (e : Vibi S P) (name : String) : Vibi S P :=
  match mapGet e.local_posts name with
  | none => e
  | some post =>
    let e := { e with local_posts := mapDelete e.local_posts name }
    let tick := e.official_tick post
    let e :=
      match mapGet e.timeline tick with
      | none => e
      | some bucket =>
        let loc' :=
          if post ∈ bucket.loc then removeFirst post bucket.loc
          else removeFirstBy (fun q => decide (q.name = some name)) bucket.loc
        if bucket.remote.length = 0 ∧ loc'.length = 0 then
          { e with timeline := mapDelete e.timeline tick }
        else
          { e with timeline := mapSet e.timeline tick { bucket with loc := loc' } }
    e.invalidate_from_tick tick

/-- `add_local_post` (vibi.ts lines 278-294). -/
def add_local_post [DecidableEq P] (e : Vibi S P) (name : String) (post : Post P) : Vibi S P :=
  let e := if (mapGet e.local_posts name).isSome then e.remove_local_post name else e
  let tick := e.official_tick post
  let before_window :=
    e.cache_enabled = true ∧ ∃ st, e.snapshot_start_tick = some st ∧ tick < st
  if before_window then e
  else
    let bucket := e.getBucketD tick
    let e :=
      { e with
        local_posts := mapSet e.local_posts name post,
        timeline := mapSet e.timeline tick { bucket with loc := bucket.loc ++ [post] } }
    e.invalidate_from_tick tick

/-- `compute_state_at_uncached` (vibi.ts lines 340-346): full replay of
ticks `initial_tick, …, at_tick` starting from `init`; the loop is
`advance_state` started one tick before `initial_tick`. -/
def compute_state_at_uncached (e : Vibi S P) (initial_tick at_tick : ℤ) : S :=
  e.advance_state e.init (initial_tick - 1) at_tick

/-- `initial_time` (vibi.ts lines 439-451), memoizing into the engine. -/
def initial_time (e : Vibi S P) : Option ℤ × Vibi S P :=
  match e.initial_time_value with
  | some t => (some t, e)
  | none =>
    match mapGet e.remote_posts 0 with
    | none => (none, e)
    | some post =>
      let t := e.official_time post
      (some t, { e with initial_time_value := some t, initial_tick_value := some (e.time_to_tick t) })

/-- `initial_tick` (vibi.ts lines 454-464), memoizing into the engine. -/
def initial_tick (e : Vibi S P) : Option ℤ × Vibi S P :=
  match e.initial_tick_value with
  | some t => (some t, e)
  | none =>
    match e.initial_time with
    | (none, e') => (none, e')
    | (some t, e') =>
      let tk := e'.time_to_tick t
      (some tk, { e' with initial_tick_value := some tk })

/-- The read-only tail of `compute_state_at` (vibi.ts lines 484-500),
run after `ensure_snapshots`: look up the nearest snapshot at or before
`at_tick` and advance from it. -/
def cachedLookup (e : Vibi S P) (at_tick : ℤ) : S :=
  match e.snapshot_start_tick with
  | none => e.init
  | some start_tick =>
    if e.snapshots.length = 0 then e.init
    else if at_tick < start_tick then (mapGet e.snapshots start_tick).getD e.init
    else
      let stride := e.snapshot_stride
      let end_tick := start_tick + ((e.snapshots.length : ℤ) - 1) * stride
      let max_index := Int.fdiv (end_tick - start_tick) stride
      let snap_index := Int.fdiv (at_tick - start_tick) stride
      let idx := min snap_index max_index
      let snap_tick := start_tick + idx * stride
      let base_state := (mapGet e.snapshots snap_tick).getD e.init
      e.advance_state base_state snap_tick at_tick

/-- `compute_state_at` (vibi.ts lines 467-501). -/
def compute_state_at (e : Vibi S P) (at_tick : ℤ) : S × Vibi S P :=
  match e.initial_tick with
  | (none, e) => (e.init, e)
  | (some initial_tick, e) =>
    if at_tick < initial_tick then (e.init, e)
    else if e.cache_enabled = false then (e.compute_state_at_uncached initial_tick at_tick, e)
    else
      let e := e.ensure_snapshots at_tick initial_tick
      (e.cachedLookup at_tick, e)

/-- `server_tick` (vibi.ts lines 411-413). -/
def server_tick (e : Vibi S P) : ℤ :=
  e.time_to_tick e.api_server_time

/-- `post_count` (vibi.ts lines 416-418). -/
def post_count (e : Vibi S P) : ℕ :=
  e.remote_posts.length

/-- `compute_render_state` (vibi.ts lines 421-436). -/
def compute_render_state (e : Vibi S P) : S × Vibi S P :=
  let curr_tick := e.server_tick
  let tick_ms : ℚ := 1000 / (e.tick_rate : ℚ)
  let tol_ticks : ℤ := ⌈(e.tolerance : ℚ) / tick_ms⌉
  let half_rtt : ℤ :=
    match e.api_ping with
    | some rtt_ms => ⌈rtt_ms / 2 / tick_ms⌉
    | none => 0
  let remote_lag := max tol_ticks (half_rtt + 1)
  let remote_tick := max 0 (curr_tick - remote_lag)
  let r := e.compute_state_at remote_tick
  let l := r.2.compute_state_at curr_tick
  (e.smooth r.1 l.1, l.2)

/-- `post(data)` (vibi.ts lines 504-518); `name` is the fresh name the
transport returns for the request. -/
def vpost [DecidableEq P] (e : Vibi S P) (name : String) (data : P) : Vibi S P :=
  let t := e.api_server_time
  let local_post : Post P :=
    { room := e.room, index := -1, server_time := t, client_time := t,
      name := some name, data := data }
  e.add_local_post name local_post

/-- The watch handler registered by the constructor
(vibi.ts lines 386-393): reconcile a local echo, then ingest. -/
def watch_handler [DecidableEq P] (e : Vibi S P) (post : Post P) : Vibi S P :=
  let e :=
    match post.name with
    | some n => e.remove_local_post n
    | none => e
  e.add_remote_post post

end Vibi

/-- The constructor (vibi.ts lines 349-398): configuration is stored,
`snapshot_stride`/`snapshot_count` are clamped by
`Math.max(1, Math.floor(x))`, and all stores start empty. -/
def mkVibi {S P : Type} (room : String) (init : S) (on_tick : S → S) (on_post : P → S → S)
    (smooth : S → S → S) (tick_rate tolerance : ℤ) (cache : Bool)
    (snapshot_stride snapshot_count : ℚ) (api_server_time : ℤ) (api_ping : Option ℚ) :
    Vibi S P :=
  { room := room
    init := init
    on_tick := on_tick
    on_post := on_post
    smooth := smooth
    tick_rate := tick_rate
    tolerance := tolerance
    remote_posts := []
    local_posts := []
    timeline := []
    cache_enabled := cache
    snapshot_stride := max 1 ⌊snapshot_stride⌋
    snapshot_count := max 1 ⌊snapshot_count⌋
    snapshots := []
    snapshot_start_tick := none
    initial_time_value := none
    initial_tick_value := none
    api_server_time := api_server_time
    api_ping := api_ping }

/-- Ingestion of a sequence of broker deliveries through the watch
handler, in arrival order. -/
def ingest {S P : Type} [DecidableEq P] (e : Vibi S P) (l : List (Post P)) : Vibi S P :=
  l.foldl Vibi.watch_handler e

/-! ### Snapshot stores as arithmetic progressions

A well-formed snapshot store holds the states for the ticks
`start, start + stride, …` in ascending key order.  `progZip base s vals`
is the association list pairing those keys with a list of values. -/

def progZip {α : Type} (base s : ℤ) : List α → List (ℤ × α)
  | [] => []
  | v :: vs => (base, v) :: progZip (base + s) s vs

namespace Vibi

variable {S P : Type}

/-- The snapshot values of a full-replay function `R` at the ticks
`base, base + s, …` (`n` of them). -/
def progListR (R : ℤ → S) (base s : ℤ) : ℕ → List S
  | 0 => []
  | n + 1 => R base :: progListR R (base + s) s n

/-- The values produced by the fill loop of `ensure_snapshots`. -/
def fillVals (e : Vibi S P) (state : S) (current_tick next_tick stride : ℤ) : ℕ → List S
  | 0 => []
  | n + 1 =>
    let state' := e.advance_state state current_tick next_tick
    state' :: fillVals e state' next_tick (next_tick + stride) stride n

/-- The number of progression keys `st, st + s, …` strictly below `tick`
(for `st < tick`, `1 ≤ s`). -/
def numBelow (st s tick : ℤ) : ℕ :=
  ((tick - st - 1) / s).toNat + 1

/-- The list of snapshot values held after `ensure_snapshots` has filled
forward (before the overflow drop): the old values, extended by the fill
loop from the last stored state (or from `init` when the store is empty).
`D` is the number of strides from `start` to the requested tick. -/
def ensureVals (e : Vibi S P) (st : ℤ) (vals : List S) (D : ℤ) : List S :=
  if vals.length = 0 then
    fillVals e e.init (st - 1) st e.snapshot_stride (D.toNat + 1)
  else if (vals.length : ℤ) ≤ D then
    vals ++
      fillVals e (vals.getLast?.getD e.init)
        (st + ((vals.length : ℤ) - 1) * e.snapshot_stride)
        (st + (vals.length : ℤ) * e.snapshot_stride)
        e.snapshot_stride ((D - (vals.length : ℤ)).toNat + 1)
  else vals

end Vibi

/-- Keep the first post of each `index` (arrival-order dedup, as
performed by `add_remote_post`'s duplicate check). -/
def dedupByIndexAux {P : Type} (seen : List ℤ) : List (Post P) → List (Post P)
  | [] => []
  | p :: ps =>
    if p.index ∈ seen then dedupByIndexAux seen ps
    else p :: dedupByIndexAux (p.index :: seen) ps

def dedupByIndex {P : Type} : List (Post P) → List (Post P) :=
  dedupByIndexAux []

/-- A post set with authoritative (unique) indices: any two posts of the
set sharing an `index` are the same post. -/
def UniqIdx {P : Type} (l : List (Post P)) : Prop :=
  ∀ p ∈ l, ∀ q ∈ l, p.index = q.index → p = q

/-- Strictly ascending `index` order (the invariant of `bucket.remote`). -/
def SortedByIndex {P : Type} (l : List (Post P)) : Prop :=
  List.Pairwise (fun a b : Post P => a.index < b.index) l

namespace Vibi

variable {S P : Type}

/-- The structural well-formedness of the snapshot window: the store
holds consecutive stride points from `start_tick`, and every retained
post is inside the window. -/
def WFWindow (e : Vibi S P) : Prop :=
  match e.snapshot_start_tick with
  | none => e.snapshots = []
  | some st =>
    (∃ vals : List S, e.snapshots = progZip st e.snapshot_stride vals) ∧
    (∀ pr ∈ e.remote_posts, st ≤ e.official_tick pr.2) ∧
    (∀ pr ∈ e.local_posts, st ≤ e.official_tick pr.2)

/-- The engine invariant maintained by every public operation.  A
cache-disabled engine never acquires a window start (only
`ensure_snapshots` sets it, and it returns at once when the cache is
off). -/
def EngineInv (e : Vibi S P) : Prop :=
  1 ≤ e.snapshot_stride ∧ 1 ≤ e.snapshot_count ∧
  (e.snapshots.length : ℤ) ≤ e.snapshot_count ∧
  (e.cache_enabled = false → e.snapshot_start_tick = none) ∧ WFWindow e

end Vibi

/-- The engine states reachable from construction through the public
operations: ingestion via the watch handler, posting, state queries,
render queries, and the passage of time / RTT changes of the clock. -/
inductive Reach {S P : Type} [DecidableEq P] : Vibi S P → Prop
  | init : ∀ room i ot op sm tr tol cache stride count ast pg,
      Reach (mkVibi room i ot op sm tr tol cache stride count ast pg)
  | watch : ∀ e p, Reach e → Reach (Vibi.watch_handler e p)
  | post : ∀ e name data, Reach e → Reach (Vibi.vpost e name data)
  | state_at : ∀ e t, Reach e → Reach (Vibi.compute_state_at e t).2
  | render : ∀ e, Reach e → Reach (Vibi.compute_render_state e).2
  | retime : ∀ e τ rtt, Reach e → Reach { e with api_server_time := τ, api_ping := rtt }

/-! Concrete engines and posts used to witness the theorems below. -/

/-- A concrete broker post in room "r". -/
def tpost (i st ct : ℤ) (nm : Option String) (d : ℤ) : Post ℤ :=
  { room := "r", index := i, server_time := st, client_time := ct, name := nm, data := d }

/-- A counting engine: `tick_rate = 24`, `tolerance = 300`, cache on. -/
def engT : Vibi ℤ ℤ :=
  mkVibi "r" 0 (fun s => s + 1) (fun p s => s + p) (fun r _ => r) 24 300 true 8 256 5000 none

/-- The same engine with the cache disabled. -/
def engF : Vibi ℤ ℤ :=
  mkVibi "r" 0 (fun s => s + 1) (fun p s => s + p) (fun r _ => r) 24 300 false 8 256 5000 none

/-- An engine with an established window starting at tick 10 and
snapshots at ticks 10 and 12 (stride 2). -/
def engC5 : Vibi ℤ ℤ :=
  { engT with snapshot_stride := 2, snapshots := progZip 10 2 [5, 6], snapshot_start_tick := some 10 }

/-- An engine with an established window starting at tick 10 and no
snapshots (all invalidated). -/
def engC6 : Vibi ℤ ℤ :=
  { engT with snapshot_start_tick := some 10 }

/-- `tick_rate = 1`, `tolerance = 0`, cache off, one remote post at
tick 0; the current server tick is 5. -/
def engC8 : Vibi ℤ ℤ :=
  { mkVibi "r" 0 (fun s => s + 1) (fun _ s => s) (fun r _ => r) 1 0 false 8 256 5000 none with
    remote_posts := [(0, tpost 0 0 0 (some "a") 7)] }

/-- Two posts at distinct ticks. -/
def pA : Post ℤ := tpost 0 0 0 (some "a") 7

def pB : Post ℤ := tpost 1 500 480 (some "b") 5

/-- A post before `engC6`'s snapshot window (official tick 0 < 10). -/
def pC6 : Post ℤ := tpost 3 0 0 (some "c") 1

namespace Vibi

variable {S P : Type}

/-- The initial-time stamping step at the top of `add_remote_post`
(vibi.ts lines 254-258): the first index-0 post fixes
`initial_time_value` / `initial_tick_value` permanently. -/
def initStamp (e : Vibi S P) (post : Post P) : Vibi S P :=
  if post.index = 0 ∧ e.initial_time_value = none then
    let t := e.official_time post
    { e with initial_time_value := some t, initial_tick_value := some (e.time_to_tick t) }
  else e

/-- The state of an engine that has only ingested broker deliveries (no
`post`, no state queries) starting from the freshly constructed `e₀`:
`acc` is the list of accepted remote posts in arrival order.  The
timeline holds, per tick, exactly the accepted posts of that tick,
sorted by index, with no local posts. -/
structure IngestInv [DecidableEq P] (e₀ e : Vibi S P) (acc : List (Post P)) : Prop where
  init_eq : e.init = e₀.init
  on_tick_eq : e.on_tick = e₀.on_tick
  on_post_eq : e.on_post = e₀.on_post
  tol_eq : e.tolerance = e₀.tolerance
  rate_eq : e.tick_rate = e₀.tick_rate
  cache_eq : e.cache_enabled = e₀.cache_enabled
  stride_eq : e.snapshot_stride = e₀.snapshot_stride
  count_eq : e.snapshot_count = e₀.snapshot_count
  snaps_nil : e.snapshots = []
  sst_none : e.snapshot_start_tick = none
  lp_nil : e.local_posts = []
  rp_eq : e.remote_posts = acc.map (fun p => (p.index, p))
  idx_nodup : List.Pairwise (fun a b : Post P => a.index ≠ b.index) acc
  tml_get : ∀ t, mapGet e.timeline t =
      if acc.filter (fun p => decide (e₀.official_tick p = t)) = [] then none
      else some ⟨sortByIndex (acc.filter (fun p => decide (e₀.official_tick p = t))), []⟩
  itv_spec : (e.initial_time_value = none ∧ e.initial_tick_value = none ∧
        ∀ q ∈ acc, q.index ≠ 0) ∨
      (∃ p₀, p₀ ∈ acc ∧ p₀.index = 0 ∧
        e.initial_time_value = some (e₀.official_time p₀) ∧
        e.initial_tick_value = some (e₀.time_to_tick (e₀.official_time p₀)))

end Vibi

/-! ### Proof layer -/

/-! ### Association-list map lemmas -/

section MapLemmas

variable {κ α : Type} [DecidableEq κ]

theorem mapGet_mapSet_self (m : List (κ × α)) (k : κ) (v : α) :
    mapGet (mapSet m k v) k = some v := by
  induction m with
  | nil => simp [mapGet, mapSet]
  | cons hd tl ih =>
    by_cases h : hd.1 = k
    · simp [mapGet, mapSet, h]
    · simpa [mapGet, mapSet, h] using ih

theorem mapGet_mapSet_ne (m : List (κ × α)) {k k' : κ} (v : α) (h : k ≠ k') :
    mapGet (mapSet m k v) k' = mapGet m k' := by
  induction m with
  | nil => simp [mapGet, mapSet, h]
  | cons hd tl ih =>
    by_cases hh : hd.1 = k
    · simp [mapGet, mapSet, hh, h]
    · simp only [mapSet, hh, if_false, mapGet]
      by_cases hk : hd.1 = k' <;> simp [mapGet, hk, ih]

theorem mapGet_eq_none_iff (m : List (κ × α)) (k : κ) :
    mapGet m k = none ↔ ∀ pr ∈ m, pr.1 ≠ k := by
  induction m with
  | nil => simp [mapGet]
  | cons hd tl ih =>
    by_cases h : hd.1 = k <;> simp [mapGet, h, ih]

theorem mem_of_mapGet_eq_some {m : List (κ × α)} {k : κ} {v : α}
    (h : mapGet m k = some v) : (k, v) ∈ m := by
  induction m with
  | nil => simp [mapGet] at h
  | cons hd tl ih =>
    by_cases hh : hd.1 = k
    · simp only [mapGet, hh, if_true, Option.some.injEq] at h
      subst h
      rw [← hh]
      simp
    · simp only [mapGet, hh, if_false] at h
      exact List.mem_cons_of_mem _ (ih h)

theorem mapSet_eq_append_of_none {m : List (κ × α)} {k : κ} (v : α)
    (h : mapGet m k = none) : mapSet m k v = m ++ [(k, v)] := by
  induction m with
  | nil => simp [mapSet]
  | cons hd tl ih =>
    by_cases hh : hd.1 = k
    · simp [mapGet, hh] at h
    · simp only [mapGet, hh, if_false] at h
      simp [mapSet, hh, ih h]

theorem length_mapSet_of_none {m : List (κ × α)} {k : κ} (v : α)
    (h : mapGet m k = none) : (mapSet m k v).length = m.length + 1 := by
  rw [mapSet_eq_append_of_none v h]
  simp

theorem mapGet_filter_key (m : List (κ × α)) (f : κ → Bool) (k : κ) :
    mapGet (m.filter (fun pr => f pr.1)) k = if f k then mapGet m k else none := by
  induction m with
  | nil => simp [mapGet]
  | cons hd tl ih =>
    by_cases hh : hd.1 = k
    · subst hh
      by_cases hf : f hd.1 <;> simp [List.filter, mapGet, hf, ih]
    · by_cases hf : f hd.1 <;> simp [List.filter, mapGet, hf, hh, ih]

end MapLemmas

namespace Vibi

section ProgZip

variable {α : Type}

@[simp] theorem progZip_nil (base s : ℤ) : progZip base s ([] : List α) = [] := rfl

@[simp] theorem progZip_cons (base s : ℤ) (v : α) (vs : List α) :
    progZip base s (v :: vs) = (base, v) :: progZip (base + s) s vs := rfl

@[simp] theorem progZip_length (base s : ℤ) (vals : List α) :
    (progZip base s vals).length = vals.length := by
  induction vals generalizing base with
  | nil => rfl
  | cons v vs ih => simp [progZip, ih]

theorem progZip_append (base s : ℤ) (v1 v2 : List α) :
    progZip base s (v1 ++ v2) = progZip base s v1 ++ progZip (base + (v1.length : ℤ) * s) s v2 := by
  induction v1 generalizing base with
  | nil => simp
  | cons v vs ih =>
    simp only [List.cons_append, progZip_cons, ih (base + s), List.length_cons]
    congr 3
    push_cast
    ring

theorem mapGet_progZip (base s : ℤ) (hs : 1 ≤ s) (vals : List α) (i : ℕ) :
    mapGet (progZip base s vals) (base + (i : ℤ) * s) = vals[i]? := by
  induction vals generalizing base i with
  | nil => simp [mapGet]
  | cons v vs ih =>
    cases i with
    | zero => simp [mapGet]
    | succ n =>
      have hne : base ≠ base + ((n : ℤ) + 1) * s := by
        have : (0 : ℤ) < ((n : ℤ) + 1) * s := by positivity
        omega
      have := ih (base + s) n
      simp only [progZip_cons, mapGet, Nat.cast_succ, hne, if_false]
      rw [show base + ((n : ℤ) + 1) * s = base + s + (n : ℤ) * s by ring] at *
      simpa using this

theorem mapGet_progZip_zero (base s : ℤ) (v : α) (vs : List α) :
    mapGet (progZip base s (v :: vs)) base = some v := by
  simp [mapGet]

/-- Keys below the base are absent from a progression store. -/
theorem mapGet_progZip_lt (base s : ℤ) (hs : 1 ≤ s) (vals : List α) (k : ℤ) (hk : k < base) :
    mapGet (progZip base s vals) k = none := by
  induction vals generalizing base with
  | nil => simp [mapGet]
  | cons v vs ih =>
    have : base ≠ k := by omega
    simp only [progZip_cons, mapGet, this, if_false]
    exact ih (base + s) (by omega)

theorem mapDelete_progZip_head (base s : ℤ) (v : α) (vs : List α) :
    mapDelete (progZip base s (v :: vs)) base = progZip (base + s) s vs := by
  simp [mapDelete]

theorem mapDelete_progZip_last (base s : ℤ) (hs : 1 ≤ s) (vals : List α) (n : ℕ)
    (hn : vals.length = n + 1) :
    mapDelete (progZip base s vals) (base + (n : ℤ) * s) = progZip base s (vals.take n) := by
  induction vals generalizing base n with
  | nil => simp at hn
  | cons v vs ih =>
    cases n with
    | zero =>
      have : vs = [] := by simpa using hn
      subst this
      simp [mapDelete]
    | succ m =>
      have hne : base ≠ base + ((m : ℤ) + 1) * s := by
        have : (0 : ℤ) < ((m : ℤ) + 1) * s := by positivity
        omega
      have hvs : vs.length = m + 1 := by simpa using hn
      simp only [progZip_cons, mapDelete, Nat.cast_succ, hne, if_false, List.take_succ_cons]
      rw [show base + ((m : ℤ) + 1) * s = base + s + (m : ℤ) * s by ring]
      rw [ih (base + s) m hvs]

theorem dropAux_progZip (s : ℤ) (hs : 1 ≤ s) (o : ℕ) (base : ℤ) (vals : List α)
    (ho : o ≤ vals.length) :
    dropAux (progZip base s vals) base s o = progZip (base + (o : ℤ) * s) s (vals.drop o) := by
  induction o generalizing base vals with
  | zero => simp [dropAux]
  | succ m ih =>
    cases vals with
    | nil => simp at ho
    | cons v vs =>
      have hm : m ≤ vs.length := by simpa using ho
      simp only [dropAux, mapDelete_progZip_head, List.drop_succ_cons]
      rw [ih (base + s) vs hm]
      congr 1
      push_cast
      ring

end ProgZip

end Vibi

/-! ### Loop characterizations: `advance_state`, fill, drop, delete -/

namespace Vibi

variable {S P : Type}

theorem advanceAux_add (f : S → ℤ → S) (x : S) (a : ℤ) (m n : ℕ) :
    advanceAux f x a (m + n) = advanceAux f (advanceAux f x a m) (a + (m : ℤ)) n := by
  induction m generalizing x a with
  | zero => simp [advanceAux]
  | succ k ih =>
    rw [show k + 1 + n = (k + n) + 1 from by omega]
    show advanceAux f (f x (a + 1)) (a + 1) (k + n) = _
    rw [ih]
    have h1 : advanceAux f (f x (a + 1)) (a + 1) k = advanceAux f x a (k + 1) := rfl
    have h2 : a + ((k + 1 : ℕ) : ℤ) = a + 1 + (k : ℤ) := by push_cast; ring
    rw [h1, h2]

/-- `advance_state` composes across an intermediate tick. -/
theorem advance_state_comp (e : Vibi S P) (x : S) {a b c : ℤ} (h1 : a ≤ b) (h2 : b ≤ c) :
    e.advance_state (e.advance_state x a b) b c = e.advance_state x a c := by
  unfold advance_state
  have hn : (c - a).toNat = (b - a).toNat + (c - b).toNat := by omega
  rw [hn, advanceAux_add]
  congr 1
  omega

theorem advance_state_self (e : Vibi S P) (x : S) (a : ℤ) : e.advance_state x a a = x := by
  unfold advance_state
  simp [advanceAux]

theorem advance_state_of_le (e : Vibi S P) (x : S) {a b : ℤ} (h : b ≤ a) :
    e.advance_state x a b = x := by
  unfold advance_state
  have : (b - a).toNat = 0 := by omega
  simp [this, advanceAux]

theorem advance_state_succ (e : Vibi S P) (x : S) (a : ℤ) :
    e.advance_state x a (a + 1) = e.applyTick x (a + 1) := by
  unfold advance_state
  have : (a + 1 - a).toNat = 1 := by omega
  simp [this, advanceAux]

theorem applyTick_congr (e₁ e₂ : Vibi S P) (x : S) (t : ℤ)
    (h1 : e₁.on_tick = e₂.on_tick) (h2 : e₁.on_post = e₂.on_post)
    (h3 : mapGet e₁.timeline t = mapGet e₂.timeline t) :
    e₁.applyTick x t = e₂.applyTick x t := by
  unfold applyTick
  rw [h1, h2, h3]

theorem advanceAux_congr (e₁ e₂ : Vibi S P) :
    ∀ (n : ℕ) (a : ℤ) (x : S),
      (∀ τ y, a < τ → τ ≤ a + (n : ℤ) → e₁.applyTick y τ = e₂.applyTick y τ) →
      advanceAux e₁.applyTick x a n = advanceAux e₂.applyTick x a n := by
  intro n
  induction n with
  | zero => intro a x _; rfl
  | succ k ih =>
    intro a x h
    show advanceAux e₁.applyTick (e₁.applyTick x (a + 1)) (a + 1) k = _
    rw [h (a + 1) x (by omega) (by push_cast; omega)]
    exact ih (a + 1) _ (fun τ y hτ hτ' => h τ y (by omega) (by push_cast at hτ' ⊢; omega))

theorem advance_state_congr (e₁ e₂ : Vibi S P) (x : S) (a b : ℤ)
    (h : ∀ τ y, a < τ → τ ≤ b → e₁.applyTick y τ = e₂.applyTick y τ) :
    e₁.advance_state x a b = e₂.advance_state x a b := by
  unfold advance_state
  by_cases hab : a ≤ b
  · exact advanceAux_congr e₁ e₂ _ a x (fun τ y h1 h2 => h τ y h1 (by omega))
  · have : (b - a).toNat = 0 := by omega
    simp [this, advanceAux]

@[simp] theorem fillVals_length (e : Vibi S P) (state : S) (cur next s : ℤ) (n : ℕ) :
    (fillVals e state cur next s n).length = n := by
  induction n generalizing state cur next with
  | zero => rfl
  | succ k ih => simp [fillVals, ih]

theorem fillAux_eq_append (e : Vibi S P) (s : ℤ) (hs : 1 ≤ s) :
    ∀ (n : ℕ) (snaps : List (ℤ × S)) (state : S) (cur next : ℤ),
      (∀ pr ∈ snaps, pr.1 < next) →
      fillAux e snaps state cur next s n = snaps ++ progZip next s (fillVals e state cur next s n) := by
  intro n
  induction n with
  | zero => intro snaps state cur next _; simp [fillAux, fillVals]
  | succ k ih =>
    intro snaps state cur next hk
    have hnone : mapGet snaps next = none :=
      (mapGet_eq_none_iff snaps next).mpr (fun pr hpr => by have := hk pr hpr; omega)
    show fillAux e (mapSet snaps next _) _ next (next + s) s k = _
    rw [mapSet_eq_append_of_none _ hnone,
      ih (snaps ++ [(next, e.advance_state state cur next)]) _ next (next + s)
        (by
          intro pr hpr
          rcases List.mem_append.mp hpr with h | h
          · have := hk pr h; omega
          · rw [List.mem_singleton] at h
            subst h
            simp only
            omega)]
    simp [fillVals, progZip]

/-- The values stored by the fill loop are full replays when the loop
starts from a full replay: `R` is the replay function, and each fill
step extends the previous replay. -/
theorem fillVals_eq_progListR (e : Vibi S P) (R : ℤ → S) (lo s : ℤ) (hs : 0 ≤ s)
    (hR : ∀ a b, lo ≤ a → a ≤ b → e.advance_state (R a) a b = R b) :
    ∀ (n : ℕ) (cur next : ℤ), lo ≤ cur → cur ≤ next →
      fillVals e (R cur) cur next s n = progListR R next s n := by
  intro n
  induction n with
  | zero => intro cur next _ _; rfl
  | succ k ih =>
    intro cur next h1 h2
    show (e.advance_state (R cur) cur next) :: _ = _
    rw [hR cur next h1 h2]
    show R next :: fillVals e (R next) next (next + s) s k = _
    rw [ih next (next + s) (by omega) (by omega)]
    rfl

@[simp] theorem progListR_length (R : ℤ → S) (base s : ℤ) (n : ℕ) :
    (progListR R base s n).length = n := by
  induction n generalizing base with
  | zero => rfl
  | succ k ih => simp [progListR, ih]

theorem progListR_drop (R : ℤ → S) (s : ℤ) :
    ∀ (o n : ℕ) (base : ℤ), o ≤ n →
      (progListR R base s n).drop o = progListR R (base + (o : ℤ) * s) s (n - o) := by
  intro o
  induction o with
  | zero => intro n base _; simp
  | succ m ih =>
    intro n base ho
    cases n with
    | zero => omega
    | succ k =>
      show (progListR R (base + s) s k).drop m = _
      rw [ih k (base + s) (by omega)]
      congr 1
      · push_cast; ring
      · omega

theorem progListR_getElem (R : ℤ → S) (s : ℤ) :
    ∀ (n i : ℕ) (base : ℤ), i < n →
      (progListR R base s n)[i]? = some (R (base + (i : ℤ) * s)) := by
  intro n
  induction n with
  | zero => intro i base h; omega
  | succ k ih =>
    intro i base h
    cases i with
    | zero => simp [progListR]
    | succ m =>
      rw [show progListR R base s (k + 1) = R base :: progListR R (base + s) s k from rfl,
        List.getElem?_cons_succ, ih m (base + s) (by omega)]
      congr 2
      push_cast
      ring

end Vibi

/-! ### Characterizing `invalidate_from_tick` -/

namespace Vibi

variable {S P : Type}

theorem numBelow_iff {st s tick : ℤ} (hs : 1 ≤ s) (h : st < tick) (i : ℕ) :
    i < numBelow st s tick ↔ st + (i : ℤ) * s < tick := by
  have hq : 0 ≤ (tick - st - 1) / s := Int.ediv_nonneg (by omega) (by omega)
  have hiff : ((i : ℤ) ≤ (tick - st - 1) / s) ↔ (i : ℤ) * s ≤ tick - st - 1 :=
    Int.le_ediv_iff_mul_le (by omega)
  unfold numBelow
  omega

theorem numBelow_shift {st s tick : ℤ} (hs : 1 ≤ s) (h : st + s < tick) :
    numBelow st s tick = numBelow (st + s) s tick + 1 := by
  have hst : st < tick := by nlinarith
  have c1 := numBelow_iff hs hst
  have c2 := numBelow_iff hs h
  set u := numBelow st s tick with hu
  set w := numBelow (st + s) s tick with hw
  have h1 : ¬ (w + 1 < u) := by
    intro hlt
    have hc : st + ((w + 1 : ℕ) : ℤ) * s < tick := (c1 (w + 1)).mp hlt
    have hexp : st + ((w + 1 : ℕ) : ℤ) * s = st + s + (w : ℤ) * s := by push_cast; ring
    rw [hexp] at hc
    exact absurd ((c2 w).mpr hc) (lt_irrefl w)
  have h2 : w < u := by
    rcases Nat.eq_zero_or_pos w with hw0 | hwpos
    · have h0 : 0 < u := by
        rw [c1 0]
        push_cast
        simpa using hst
      omega
    · have hm : w - 1 < w := by omega
      have hc : st + s + ((w - 1 : ℕ) : ℤ) * s < tick := (c2 (w - 1)).mp hm
      have hcast : ((w - 1 : ℕ) : ℤ) = (w : ℤ) - 1 := by omega
      rw [hcast] at hc
      have hexp : st + s + ((w : ℤ) - 1) * s = st + (w : ℤ) * s := by ring
      rw [hexp] at hc
      exact (c1 w).mpr hc
  omega

theorem numBelow_one {st s tick : ℤ} (hs : 1 ≤ s) (h1 : st < tick) (h2 : ¬ st + s < tick) :
    numBelow st s tick = 1 := by
  have c := numBelow_iff hs h1
  have l0 : 0 < numBelow st s tick := by
    rw [c 0]
    push_cast
    simpa using h1
  have l1 : ¬ (1 < numBelow st s tick) := by
    rw [c 1]
    push_cast
    simpa using h2
  omega

theorem downCount_succ {tick s t : ℤ} (hs : 1 ≤ s) (h : tick ≤ t) :
    downCount tick s t = downCount tick s (t - s) + 1 := by
  have hcond : ¬ (s ≤ 0 ∨ t < tick) := by omega
  rcases lt_or_le (t - s) tick with hlt | hle
  · have hcond2 : (s ≤ 0 ∨ t - s < tick) := Or.inr hlt
    unfold downCount
    rw [if_neg hcond, if_pos hcond2]
    have hdiv : (t - tick).toNat / s.toNat = 0 := Nat.div_eq_of_lt (by omega)
    omega
  · have hcond2 : ¬ (s ≤ 0 ∨ t - s < tick) := by omega
    unfold downCount
    rw [if_neg hcond, if_neg hcond2]
    have heq : (t - tick).toNat = (t - s - tick).toNat + s.toNat := by omega
    rw [heq, Nat.add_div_right _ (by omega)]

theorem mem_progZip_lb {α : Type} {s : ℤ} (hs : 0 ≤ s) :
    ∀ (vals : List α) (b : ℤ) (pr : ℤ × α), pr ∈ progZip b s vals → b ≤ pr.1 := by
  intro vals
  induction vals with
  | nil => intro b pr h; simp at h
  | cons v vs ih =>
    intro b pr h
    rcases List.mem_cons.mp h with rfl | h
    · simp
    · have := ih (b + s) pr h
      omega

theorem mem_progZip_ub {α : Type} {s : ℤ} (hs : 0 ≤ s) :
    ∀ (vals : List α) (b : ℤ) (pr : ℤ × α), pr ∈ progZip b s vals →
      pr.1 ≤ b + ((vals.length : ℤ) - 1) * s := by
  intro vals
  induction vals with
  | nil => intro b pr h; simp at h
  | cons v vs ih =>
    intro b pr h
    have hlen : (((v :: vs).length : ℤ) - 1) = (vs.length : ℤ) := by
      rw [List.length_cons]
      push_cast
      ring
    rw [hlen]
    have hnn : 0 ≤ (vs.length : ℤ) * s := by positivity
    rcases List.mem_cons.mp h with rfl | h
    · show b ≤ b + (vs.length : ℤ) * s
      omega
    · have hle := ih (b + s) pr h
      have hexp : b + s + ((vs.length : ℤ) - 1) * s = b + (vs.length : ℤ) * s := by ring
      rw [hexp] at hle
      exact hle

theorem progZip_filter_lt {α : Type} {s : ℤ} (hs : 1 ≤ s) :
    ∀ (vals : List α) (b tick : ℤ), b < tick →
      (progZip b s vals).filter (fun pr => decide (pr.1 < tick)) =
        progZip b s (vals.take (numBelow b s tick)) := by
  intro vals
  induction vals with
  | nil => intro b tick _; simp
  | cons v vs ih =>
    intro b tick hb
    rcases lt_or_le (b + s) tick with hbs | hbs
    · rw [numBelow_shift hs hbs]
      simp only [progZip_cons, List.filter_cons, decide_eq_true_eq, if_pos hb,
        List.take_succ_cons]
      rw [ih (b + s) tick hbs]
    · rw [numBelow_one hs hb (by omega)]
      simp only [progZip_cons, List.filter_cons, decide_eq_true_eq, if_pos hb,
        List.take_succ_cons, List.take_zero]
      have hnil : (progZip (b + s) s vs).filter (fun pr => decide (pr.1 < tick)) = [] := by
        rw [List.filter_eq_nil_iff]
        intro pr hpr
        have := mem_progZip_lb (by omega) vs (b + s) pr hpr
        simp only [decide_eq_true_eq]
        omega
      rw [hnil]
      simp

/-- The snapshot-deletion loop of `invalidate_from_tick` keeps exactly
the snapshots strictly below `tick`. -/
theorem delSnapsAux_inval {s : ℤ} (hs : 1 ≤ s) :
    ∀ (n : ℕ) (vals : List S) (st tick : ℤ), vals.length = n → st < tick →
      tick ≤ st + ((n : ℤ) - 1) * s →
      delSnapsAux (progZip st s vals) (st + ((n : ℤ) - 1) * s) s
          (downCount tick s (st + ((n : ℤ) - 1) * s)) =
        progZip st s (vals.take (numBelow st s tick)) := by
  intro n
  induction n with
  | zero =>
    intro vals st tick hn h1 h2
    exfalso
    have hc : st + (((0 : ℕ) : ℤ) - 1) * s = st - s := by push_cast; ring
    rw [hc] at h2
    omega
  | succ m ih =>
    intro vals st tick hn h1 h2
    have hms : st + (((m + 1 : ℕ) : ℤ) - 1) * s = st + (m : ℤ) * s := by push_cast; ring
    rw [hms] at h2 ⊢
    rcases Nat.eq_zero_or_pos m with hm0 | hmpos
    · exfalso
      subst hm0
      have : st + ((0 : ℕ) : ℤ) * s = st := by push_cast; ring
      rw [this] at h2
      omega
    · rw [downCount_succ hs h2]
      simp only [delSnapsAux]
      rw [mapDelete_progZip_last st s hs vals m hn]
      have hts : st + (m : ℤ) * s - s = st + ((m : ℤ) - 1) * s := by ring
      rw [hts]
      have hlen : (vals.take m).length = m := by
        rw [List.length_take]
        omega
      rcases lt_or_le (st + ((m : ℤ) - 1) * s) tick with hgt | hle
      · have hdc : downCount tick s (st + ((m : ℤ) - 1) * s) = 0 := by
          unfold downCount
          rw [if_pos (Or.inr hgt)]
        rw [hdc]
        simp only [delSnapsAux]
        have humeq : numBelow st s tick = m := by
          have c := numBelow_iff hs h1
          have ha : ¬ (m < numBelow st s tick) := by
            rw [c m]
            omega
          have hb : m - 1 < numBelow st s tick := by
            rw [c (m - 1)]
            have hcast : ((m - 1 : ℕ) : ℤ) = (m : ℤ) - 1 := by omega
            rw [hcast]
            exact hgt
          omega
        rw [humeq]
      · have hcast : st + ((m : ℤ) - 1) * s = st + (((m : ℕ) : ℤ) - 1) * s := by push_cast; ring
        rw [hcast]
        rw [ih (vals.take m) st tick hlen h1 (by push_cast; push_cast at hle; exact hle)]
        rw [List.take_take]
        have humle : numBelow st s tick ≤ m := by
          have c := numBelow_iff hs h1
          have ha : ¬ (m - 1 < numBelow st s tick) := by
            rw [c (m - 1)]
            have hcast2 : ((m - 1 : ℕ) : ℤ) = (m : ℤ) - 1 := by omega
            rw [hcast2]
            omega
          omega
        rw [min_eq_left humle]

end Vibi

namespace Vibi

variable {S P : Type}
/-- `invalidate_from_tick` on a well-formed snapshot window: for
`tick < start_tick` it is a no-op; otherwise it deletes exactly the
snapshots whose tick is `≥ tick`. -/
theorem invalidate_from_tick_spec (e : Vibi S P) (st tick : ℤ) (vals : List S)
    (hc : e.cache_enabled = true) (hst : e.snapshot_start_tick = some st)
    (hsnap : e.snapshots = progZip st e.snapshot_stride vals)
    (hs : 1 ≤ e.snapshot_stride) :
    e.invalidate_from_tick tick =
      if tick < st then e
      else { e with snapshots := e.snapshots.filter (fun pr => decide (pr.1 < tick)) } := by
  obtain ⟨rm, ini, ot, op, sm, tr, tol, rp, lp, tml, ce, ss, sc, snaps, sst, itv, ivt, ast, pg⟩ := e
  dsimp only at hc hst hsnap hs ⊢
  subst hc
  subst hst
  subst hsnap
  simp only [invalidate_from_tick]
  simp only [Bool.true_eq_false, if_false, progZip_length]
  split_ifs with h1 h2 h3 h4
  · rfl
  · -- empty store
    have hv : vals = [] := List.length_eq_zero.mp h2
    subst hv
    rfl
  · -- tick past the last snapshot: filter keeps everything
    have hfil : (progZip st ss vals).filter (fun pr => decide (pr.1 < tick)) =
        progZip st ss vals := by
      rw [List.filter_eq_self]
      intro pr hpr
      have := mem_progZip_ub (by omega) vals st pr hpr
      simp only [decide_eq_true_eq]
      omega
    rw [hfil]
  · -- tick = start_tick: cleared
    have hfil : (progZip st ss vals).filter (fun pr => decide (pr.1 < tick)) = [] := by
      rw [List.filter_eq_nil_iff]
      intro pr hpr
      have := mem_progZip_lb (by omega) vals st pr hpr
      simp only [decide_eq_true_eq]
      omega
    rw [hfil]
  · -- start_tick < tick ≤ end_tick: the deletion loop is the filter
    have hstlt : st < tick := by omega
    have hle : tick ≤ st + ((vals.length : ℤ) - 1) * ss := by omega
    have hkey := delSnapsAux_inval hs vals.length vals st tick rfl hstlt hle
    rw [hkey, progZip_filter_lt hs vals st tick hstlt]

theorem upCount_succ {next target s : ℤ} (hs : 1 ≤ s) (h : next ≤ target) :
    upCount next target s = upCount (next + s) target s + 1 := by
  have hcond : ¬ (s ≤ 0 ∨ target < next) := by omega
  rcases lt_or_le target (next + s) with hlt | hle
  · have hcond2 : (s ≤ 0 ∨ target < next + s) := Or.inr hlt
    unfold upCount
    rw [if_neg hcond, if_pos hcond2]
    have hdiv : (target - next).toNat / s.toNat = 0 := Nat.div_eq_of_lt (by omega)
    omega
  · have hcond2 : ¬ (s ≤ 0 ∨ target < next + s) := by omega
    unfold upCount
    rw [if_neg hcond, if_neg hcond2]
    have heq : (target - next).toNat = (target - (next + s)).toNat + s.toNat := by omega
    rw [heq, Nat.add_div_right _ (by omega)]

theorem upCount_prog {s : ℤ} (hs : 1 ≤ s) :
    ∀ (K : ℕ) (b : ℤ), upCount b (b + (K : ℤ) * s) s = K + 1 := by
  intro K
  induction K with
  | zero =>
    intro b
    unfold upCount
    rw [if_neg (by omega)]
    have h0 : (b + ((0 : ℕ) : ℤ) * s - b).toNat = 0 := by push_cast; omega
    rw [h0]
    simp
  | succ m ih =>
    intro b
    have hK : 0 ≤ ((m : ℤ) + 1) * s := by positivity
    have hstep := @upCount_succ b (b + ((m + 1 : ℕ) : ℤ) * s) s hs
      (by push_cast; omega)
    rw [hstep]
    have hshift : b + ((m + 1 : ℕ) : ℤ) * s = (b + s) + (m : ℤ) * s := by push_cast; ring
    rw [hshift, ih (b + s)]

theorem strictUpCount_succ {t du s : ℤ} (hs : 1 ≤ s) (h : t < du) :
    strictUpCount t du s = strictUpCount (t + s) du s + 1 := by
  have hcond : ¬ (s ≤ 0 ∨ du ≤ t) := by omega
  rcases lt_or_le du (t + s + 1) with hlt | hle
  · have hcond2 : (s ≤ 0 ∨ du ≤ t + s) := Or.inr (by omega)
    unfold strictUpCount
    rw [if_neg hcond, if_pos hcond2]
    have hdiv : (du - t - 1).toNat / s.toNat = 0 := Nat.div_eq_of_lt (by omega)
    omega
  · have hcond2 : ¬ (s ≤ 0 ∨ du ≤ t + s) := by omega
    unfold strictUpCount
    rw [if_neg hcond, if_neg hcond2]
    have heq : (du - t - 1).toNat = (du - (t + s) - 1).toNat + s.toNat := by omega
    rw [heq, Nat.add_div_right _ (by omega)]

theorem strictUpCount_prog {s : ℤ} (hs : 1 ≤ s) :
    ∀ (o : ℕ) (t : ℤ), strictUpCount t (t + (o : ℤ) * s) s = o := by
  intro o
  induction o with
  | zero =>
    intro t
    unfold strictUpCount
    rw [if_pos (by push_cast; omega)]
  | succ m ih =>
    intro t
    have hpos : (0 : ℤ) < ((m : ℤ) + 1) * s := by positivity
    have hstep := @strictUpCount_succ t (t + ((m + 1 : ℕ) : ℤ) * s) s hs
      (by push_cast; omega)
    rw [hstep]
    have hshift : t + ((m + 1 : ℕ) : ℤ) * s = (t + s) + (m : ℤ) * s := by push_cast; ring
    rw [hshift, ih (t + s)]

end Vibi

namespace Vibi

variable {S P : Type}

/-- The overflow drop of `ensure_snapshots` drops the `o` oldest
snapshots of a well-formed store. -/
theorem dropAux_spec {s : ℤ} (hs : 1 ≤ s) (st o : ℤ) (valsAll : List S)
    (ho : 0 < o) (hol : o ≤ (valsAll.length : ℤ)) :
    dropAux (progZip st s valsAll) st s (strictUpCount st (st + o * s) s) =
      progZip (st + o * s) s (valsAll.drop o.toNat) := by
  obtain ⟨n, rfl⟩ : ∃ n : ℕ, o = (n : ℤ) := ⟨o.toNat, by omega⟩
  rw [strictUpCount_prog hs n st, dropAux_progZip s hs n st valsAll (by omega)]
  simp

/-- Full characterization of `ensure_snapshots` on a well-formed window
with `start_tick ≤ at_tick`: fill forward to the last stride point
`≤ at_tick`, drop the oldest snapshots on overflow (sliding the window
start), and prune posts older than the (new) window start. -/
theorem ensure_snapshots_eq (e : Vibi S P) (st at_tick it : ℤ) (vals : List S)
    (hc : e.cache_enabled = true) (hst : e.snapshot_start_tick = some st)
    (hsnap : e.snapshots = progZip st e.snapshot_stride vals)
    (hs : 1 ≤ e.snapshot_stride) (hat : st ≤ at_tick) :
    e.ensure_snapshots at_tick it =
      (let s := e.snapshot_stride
       let valsAll := ensureVals e st vals ((at_tick - st) / s)
       let snapsAll := progZip st s valsAll
       if e.snapshot_count < (valsAll.length : ℤ) then
         let o := (valsAll.length : ℤ) - e.snapshot_count
         let snaps' := dropAux snapsAll st s (strictUpCount st (st + o * s) s)
         ({ e with snapshots := snaps', snapshot_start_tick := some (st + o * s) }
           ).prune_before_tick (st + o * s)
       else
         ({ e with snapshots := snapsAll, snapshot_start_tick := some st }
           ).prune_before_tick st) := by
  obtain ⟨rm, ini, ot, op, sm, tr, tol, rp, lp, tml, ce, ss, sc, snaps, sst, itv, ivt, ast, pg⟩ := e
  dsimp only at hc hst hsnap hs ⊢
  subst hc
  subst hst
  subst hsnap
  have hD0 : 0 ≤ (at_tick - st) / ss := Int.ediv_nonneg (by omega) (by omega)
  simp only [ensure_snapshots, Bool.true_eq_false, if_false, ensureVals]
  simp only [reduceCtorEq, if_false, if_neg (not_lt.mpr hat), progZip_length,
    Int.fdiv_eq_ediv _ (by omega : (0 : ℤ) ≤ ss)]
  set D := (at_tick - st) / ss with hDdef
  by_cases hn : vals.length = 0
  · -- empty snapshot store: fill from scratch
    have hv : vals = [] := List.length_eq_zero.mp hn
    subst hv
    simp only [List.length_nil, eq_self_iff_true, if_true, progZip_nil, Nat.cast_zero]
    have htar : st + D * ss = st + ((D.toNat : ℤ)) * ss := by
      rw [Int.toNat_of_nonneg hD0]
    rw [htar, upCount_prog hs D.toNat st]
    rw [fillAux_eq_append _ ss hs _ [] _ _ st (by simp)]
    simp only [List.nil_append, progZip_length, fillVals_length]
  · -- non-empty store: fill from the last snapshot
    have hn1 : 1 ≤ vals.length := by omega
    simp only [if_neg hn]
    have hlast : mapGet (progZip st ss vals) (st + ((vals.length : ℤ) - 1) * ss) =
        vals.getLast? := by
      have hcast : ((vals.length - 1 : ℕ) : ℤ) = (vals.length : ℤ) - 1 := by omega
      have hg := mapGet_progZip st ss hs vals (vals.length - 1)
      rw [hcast] at hg
      rw [hg, List.getLast?_eq_getElem?]
    rw [hlast]
    have hnext : st + ((vals.length : ℤ) - 1) * ss + ss = st + (vals.length : ℤ) * ss := by
      ring
    rw [hnext]
    have hkeys : ∀ pr ∈ progZip st ss vals, pr.1 < st + (vals.length : ℤ) * ss := by
      intro pr hpr
      have hub := mem_progZip_ub (by omega : (0 : ℤ) ≤ ss) vals st pr hpr
      have hring : st + (vals.length : ℤ) * ss = st + ((vals.length : ℤ) - 1) * ss + ss := by
        ring
      rw [hring]
      omega
    by_cases hD : (vals.length : ℤ) ≤ D
    · -- the target is at or past the next stride point: fill happens
      simp only [if_pos hD]
      have htar : st + D * ss =
          (st + (vals.length : ℤ) * ss) + (((D - (vals.length : ℤ)).toNat : ℤ)) * ss := by
        rw [Int.toNat_of_nonneg (by omega)]
        ring
      rw [htar, upCount_prog hs _ _]
      rw [fillAux_eq_append _ ss hs _ (progZip st ss vals) _ _ _ hkeys]
      rw [← progZip_append]
      simp only [progZip_length, List.length_append, fillVals_length]
    · -- the target is inside the stored window: no fill
      simp only [if_neg hD]
      have hlt : st + D * ss < st + (vals.length : ℤ) * ss := by
        have hmul := Int.mul_lt_mul_of_pos_right (by omega : D < (vals.length : ℤ))
          (by omega : (0 : ℤ) < ss)
        omega
      have hup : upCount (st + (vals.length : ℤ) * ss) (st + D * ss) ss = 0 := by
        unfold upCount
        rw [if_pos (Or.inr hlt)]
      rw [hup]
      simp only [fillAux, progZip_length]

end Vibi

namespace Vibi

variable {S P : Type}

/-- The snapshot lookup after a fill: when the store holds the replay
values `R` at `st, st + s, …` and `at_tick` is at or past the last
snapshot tick, `cachedLookup` starts from the last snapshot and advances
to `at_tick`. -/
theorem cachedLookup_prog (e : Vibi S P) (st s at_tick : ℤ) (R : ℤ → S) (N : ℕ)
    (hsst : e.snapshot_start_tick = some st) (hstride : e.snapshot_stride = s) (hs : 1 ≤ s)
    (hsnaps : e.snapshots = progZip st s (progListR R st s N)) (hN : 1 ≤ N)
    (hat : st + ((N : ℤ) - 1) * s ≤ at_tick) :
    e.cachedLookup at_tick =
      e.advance_state (R (st + ((N : ℤ) - 1) * s)) (st + ((N : ℤ) - 1) * s) at_tick := by
  subst hstride
  have hprod : 0 ≤ ((N : ℤ) - 1) * e.snapshot_stride := mul_nonneg (by omega) (by omega)
  have hats : st ≤ at_tick := by omega
  obtain ⟨rm, ini, ot, op, sm, tr, tol, rp, lp, tml, ce, ss, sc, snaps, sst, itv, ivt, ast, pg⟩ := e
  dsimp only at hsst hsnaps hs hprod hat ⊢
  subst hsst
  subst hsnaps
  simp only [cachedLookup, progZip_length, progListR_length]
  rw [if_neg (by omega), if_neg (not_lt.mpr hats)]
  have hend : st + ((N : ℤ) - 1) * ss - st = ((N : ℤ) - 1) * ss := by ring
  have hmax : Int.fdiv (st + ((N : ℤ) - 1) * ss - st) ss = (N : ℤ) - 1 := by
    rw [hend, Int.fdiv_eq_ediv _ (by omega), Int.mul_ediv_cancel _ (by omega)]
  have hsnapidx : (N : ℤ) - 1 ≤ Int.fdiv (at_tick - st) ss := by
    rw [Int.fdiv_eq_ediv _ (by omega)]
    have hmono := Int.ediv_le_ediv (by omega : (0 : ℤ) < ss)
      (by omega : ((N : ℤ) - 1) * ss ≤ at_tick - st)
    rw [Int.mul_ediv_cancel _ (by omega)] at hmono
    exact hmono
  rw [hmax, min_eq_right hsnapidx]
  have hcast : (((N - 1 : ℕ)) : ℤ) = (N : ℤ) - 1 := by omega
  have hget := mapGet_progZip st ss hs (progListR R st ss N) (N - 1)
  rw [hcast] at hget
  rw [hget, progListR_getElem R ss N (N - 1) st (by omega), hcast]
  rfl

end Vibi

namespace Vibi

variable {S P : Type}

/-- From an empty cache, `ensure_snapshots` followed by `cachedLookup`
computes exactly the full replay from `initial_tick`: every snapshot it
fills is a replay prefix, and the lookup advances the last one to
`at_tick`. -/
theorem cached_compute_eq_uncached (e : Vibi S P) (it at_tick : ℤ)
    (hc : e.cache_enabled = true) (hs : 1 ≤ e.snapshot_stride) (hcnt : 1 ≤ e.snapshot_count)
    (hsnap : e.snapshots = []) (hst : e.snapshot_start_tick = none) (hat : it ≤ at_tick) :
    (e.ensure_snapshots at_tick it).cachedLookup at_tick =
      e.compute_state_at_uncached it at_tick := by
  obtain ⟨rm, ini, ot, op, sm, tr, tol, rp, lp, tml, ce, ss, sc, snaps, sst, itv, ivt, ast, pg⟩ := e
  dsimp only at hc hs hcnt hsnap hst ⊢
  subst hc
  subst hsnap
  subst hst
  -- the engine after the start-tick initialization step of ensure_snapshots
  set e₁ : Vibi S P :=
    { room := rm, init := ini, on_tick := ot, on_post := op, smooth := sm, tick_rate := tr,
      tolerance := tol, remote_posts := rp, local_posts := lp, timeline := tml,
      cache_enabled := true, snapshot_stride := ss, snapshot_count := sc, snapshots := [],
      snapshot_start_tick := some it, initial_time_value := itv, initial_tick_value := ivt,
      api_server_time := ast, api_ping := pg } with he₁
  have hstep :
      ({ room := rm, init := ini, on_tick := ot, on_post := op, smooth := sm, tick_rate := tr,
         tolerance := tol, remote_posts := rp, local_posts := lp, timeline := tml,
         cache_enabled := true, snapshot_stride := ss, snapshot_count := sc, snapshots := [],
         snapshot_start_tick := none, initial_time_value := itv, initial_tick_value := ivt,
         api_server_time := ast, api_ping := pg } : Vibi S P).ensure_snapshots at_tick it =
        e₁.ensure_snapshots at_tick it := by
    simp only [ensure_snapshots, he₁]
    simp
  rw [hstep]
  rw [ensure_snapshots_eq e₁ it at_tick it [] rfl rfl rfl hs hat]
  set D := (at_tick - it) / ss with hD
  have hD0 : 0 ≤ D := Int.ediv_nonneg (by omega) (by omega)
  have hDmul : D * ss ≤ at_tick - it := by
    have h1 := Int.ediv_add_emod (at_tick - it) ss
    have h2 := Int.emod_nonneg (at_tick - it) (by omega : ss ≠ 0)
    have h3 : ss * D = D * ss := mul_comm ss D
    rw [hD] at h3 ⊢
    omega
  -- the replay function and the fill values
  set R : ℤ → S := fun τ => e₁.advance_state ini (it - 1) τ with hR
  have hRcomp : ∀ a b, it - 1 ≤ a → a ≤ b → e₁.advance_state (R a) a b = R b := by
    intro a b ha hab
    exact advance_state_comp e₁ ini ha hab
  set N : ℕ := D.toNat + 1 with hN
  have hfv : fillVals e₁ ini (it - 1) it ss N = progListR R it ss N := by
    have hini : R (it - 1) = ini := advance_state_self e₁ ini (it - 1)
    calc fillVals e₁ ini (it - 1) it ss N
        = fillVals e₁ (R (it - 1)) (it - 1) it ss N := by rw [hini]
      _ = progListR R it ss N :=
          fillVals_eq_progListR e₁ R (it - 1) ss (by omega) hRcomp N (it - 1) it
            (le_refl _) (by omega)
  have hN1 : ((N : ℕ) : ℤ) - 1 = D := by omega
  simp only [ensureVals, List.length_nil, eq_self_iff_true, if_true]
  rw [show ((at_tick - it) / e₁.snapshot_stride) = D from rfl]
  rw [show (D.toNat + 1) = N from rfl]
  rw [hfv]
  simp only [progListR_length]
  -- the congruence between replay on the pruned engine and on e₁
  have happly : ∀ (e₂ : Vibi S P), e₂.on_tick = ot → e₂.on_post = op → e₂.timeline = tml →
      ∀ y τ, e₂.applyTick y τ = e₁.applyTick y τ := by
    intro e₂ h1 h2 h3 y τ
    exact applyTick_congr e₂ e₁ y τ (by rw [h1]) (by rw [h2]) (by rw [h3])
  have hDss : 0 ≤ D * ss := mul_nonneg (by omega) (by omega)
  have huncached :
      ({ room := rm, init := ini, on_tick := ot, on_post := op, smooth := sm, tick_rate := tr,
         tolerance := tol, remote_posts := rp, local_posts := lp, timeline := tml,
         cache_enabled := true, snapshot_stride := ss, snapshot_count := sc, snapshots := [],
         snapshot_start_tick := none, initial_time_value := itv, initial_tick_value := ivt,
         api_server_time := ast, api_ping := pg } : Vibi S P).compute_state_at_uncached
        it at_tick = R at_tick := by
    show _ = e₁.advance_state ini (it - 1) at_tick
    apply advance_state_congr
    intro τ y _ _
    exact applyTick_congr _ e₁ y τ rfl rfl rfl
  by_cases hov : sc < ((N : ℕ) : ℤ)
  · -- overflow: the window slides to it + o * ss
    rw [if_pos hov]
    set o : ℤ := ((N : ℕ) : ℤ) - sc with ho
    have hopos : 0 < o := by omega
    have hole : o ≤ ((progListR R it ss N).length : ℤ) := by
      simp only [progListR_length]
      omega
    rw [dropAux_spec hs it o (progListR R it ss N) hopos hole]
    have hcast : ((o.toNat : ℕ) : ℤ) = o := by omega
    rw [progListR_drop R ss o.toNat N it (by omega), hcast]
    set N₂ : ℕ := N - o.toNat with hN₂
    have hN₂1 : 1 ≤ N₂ := by omega
    have hkeyeq : it + o * ss + ((N₂ : ℤ) - 1) * ss = it + D * ss := by
      have hc2 : (N₂ : ℤ) = (N : ℤ) - o := by omega
      rw [hc2]
      have hr : it + o * ss + (((N : ℤ) - o) - 1) * ss = it + ((N : ℤ) - 1) * ss := by ring
      rw [hr, hN1]
    rw [cachedLookup_prog _ (it + o * ss) ss at_tick R N₂ rfl rfl hs rfl hN₂1
      (by rw [hkeyeq]; omega)]
    rw [hkeyeq]
    have hoss : 0 ≤ o * ss := mul_nonneg (by omega) (by omega)
    have hoD : o * ss ≤ D * ss := Int.mul_le_mul_of_nonneg_right (by omega) (by omega)
    have hcongr : ∀ y, (({ e₁ with
        snapshots := progZip (it + o * ss) ss (progListR R (it + o * ss) ss N₂),
        snapshot_start_tick := some (it + o * ss) } : Vibi S P).prune_before_tick
          (it + o * ss)).advance_state y (it + D * ss) at_tick =
        e₁.advance_state y (it + D * ss) at_tick := by
      intro y
      apply advance_state_congr
      intro τ z hτ1 hτ2
      apply applyTick_congr
      · rfl
      · rfl
      · show mapGet (tml.filter fun pr => !decide (pr.1 < it + o * ss)) τ = mapGet tml τ
        rw [mapGet_filter_key tml (fun k => !decide (k < it + o * ss)) τ]
        have hτ : ¬ (τ < it + o * ss) := by omega
        simp [hτ]
    rw [hcongr (R (it + D * ss))]
    rw [hRcomp (it + D * ss) at_tick (by omega) (by omega)]
    exact huncached.symm
  · -- no overflow: the window starts at it
    rw [if_neg hov]
    rw [cachedLookup_prog _ it ss at_tick R N rfl rfl hs rfl (by omega)
      (by rw [hN1]; omega)]
    rw [hN1]
    have hcongr : ∀ y, (({ e₁ with
        snapshots := progZip it ss (progListR R it ss N),
        snapshot_start_tick := some it } : Vibi S P).prune_before_tick
          it).advance_state y (it + D * ss) at_tick =
        e₁.advance_state y (it + D * ss) at_tick := by
      intro y
      apply advance_state_congr
      intro τ z hτ1 hτ2
      apply applyTick_congr
      · rfl
      · rfl
      · show mapGet (tml.filter fun pr => !decide (pr.1 < it)) τ = mapGet tml τ
        rw [mapGet_filter_key tml (fun k => !decide (k < it)) τ]
        have hτ : ¬ (τ < it) := by omega
        simp [hτ]
    rw [hcongr (R (it + D * ss))]
    rw [hRcomp (it + D * ss) at_tick (by omega) (by omega)]
    exact huncached.symm

end Vibi

namespace Vibi

variable {S P : Type}

/-- `compute_state_at_uncached` only depends on `init`, the handlers and
the timeline contents. -/
theorem compute_state_at_uncached_congr (e₁ e₂ : Vibi S P) (it at_tick : ℤ)
    (h1 : e₁.init = e₂.init) (h2 : e₁.on_tick = e₂.on_tick) (h3 : e₁.on_post = e₂.on_post)
    (h4 : ∀ t, mapGet e₁.timeline t = mapGet e₂.timeline t) :
    e₁.compute_state_at_uncached it at_tick = e₂.compute_state_at_uncached it at_tick := by
  show e₁.advance_state e₁.init (it - 1) at_tick = e₂.advance_state e₂.init (it - 1) at_tick
  rw [h1]
  apply advance_state_congr
  intro τ y _ _
  exact applyTick_congr _ _ y τ h2 h3 (h4 τ)

/-- With an empty cache, `compute_state_at` with the cache enabled
returns the same state as with the cache disabled (full replay). -/
theorem compute_state_at_cache_eq (e : Vibi S P) (at_tick : ℤ)
    (hc : e.cache_enabled = true) (hs : 1 ≤ e.snapshot_stride) (hcnt : 1 ≤ e.snapshot_count)
    (hsnap : e.snapshots = []) (hst : e.snapshot_start_tick = none) :
    (e.compute_state_at at_tick).1 =
      (({ e with cache_enabled := false }).compute_state_at at_tick).1 := by
  obtain ⟨rm, ini, ot, op, sm, tr, tol, rp, lp, tml, ce, ss, sc, snaps, sst, itv, ivt, ast, pg⟩ := e
  dsimp only at hc hs hcnt hsnap hst ⊢
  subst hc
  subst hsnap
  subst hst
  rcases ivt with _ | tk
  · rcases itv with _ | t₀
    · rcases hrp : mapGet rp 0 with _ | post
      · simp [compute_state_at, initial_tick, initial_time, hrp]
      · simp only [compute_state_at, initial_tick, initial_time, hrp, time_to_tick,
          official_time]
        set tk : ℤ := Int.fdiv
          ((if post.client_time ≤ post.server_time - tol then post.server_time - tol
            else post.client_time) * tr) 1000 with htk
        by_cases hlt : at_tick < tk
        · rw [if_pos hlt, if_pos hlt]
        · rw [if_neg hlt, if_neg hlt]
          simp only [Bool.true_eq_false, if_false, eq_self_iff_true, if_true]
          rw [cached_compute_eq_uncached _ _ at_tick rfl hs hcnt rfl rfl (by omega)]
          exact compute_state_at_uncached_congr _ _ _ at_tick rfl rfl rfl (fun t => rfl)
    · simp only [compute_state_at, initial_tick, initial_time, time_to_tick]
      set tk : ℤ := Int.fdiv (t₀ * tr) 1000 with htk
      by_cases hlt : at_tick < tk
      · rw [if_pos hlt, if_pos hlt]
      · rw [if_neg hlt, if_neg hlt]
        simp only [Bool.true_eq_false, if_false, eq_self_iff_true, if_true]
        rw [cached_compute_eq_uncached _ _ at_tick rfl hs hcnt rfl rfl (by omega)]
        exact compute_state_at_uncached_congr _ _ _ at_tick rfl rfl rfl (fun t => rfl)
  · simp only [compute_state_at, initial_tick]
    by_cases hlt : at_tick < tk
    · rw [if_pos hlt, if_pos hlt]
    · rw [if_neg hlt, if_neg hlt]
      simp only [Bool.true_eq_false, if_false, eq_self_iff_true, if_true]
      rw [cached_compute_eq_uncached _ _ at_tick rfl hs hcnt rfl rfl (by omega)]
      exact compute_state_at_uncached_congr _ _ _ at_tick rfl rfl rfl (fun t => rfl)

end Vibi

namespace Vibi

variable {S P : Type}

/-- Unfolding of `compute_render_state`: the render state is the blend
of the state at the lagged tick and the state at the current tick, with
the lag `max(tol_ticks, half_rtt + 1)` (`half_rtt = 0` for an infinite
RTT). -/
theorem compute_render_state_eq (e : Vibi S P) :
    (e.compute_render_state).1 =
      (let tick_ms : ℚ := 1000 / (e.tick_rate : ℚ)
       let tol_ticks : ℤ := ⌈(e.tolerance : ℚ) / tick_ms⌉
       let remote_lag : ℤ :=
         match e.api_ping with
         | some rtt => max tol_ticks (⌈rtt / 2 / tick_ms⌉ + 1)
         | none => max tol_ticks 1
       let remote_tick := max 0 (e.server_tick - remote_lag)
       let r := e.compute_state_at remote_tick
       e.smooth r.1 (r.2.compute_state_at e.server_tick).1) := by
  rcases hp : e.api_ping with _ | rtt <;>
    simp only [Vibi.compute_render_state, hp] <;>
    norm_num

end Vibi

/-! ### Claims -/

/-- C1: for any fixed contents of `remote_posts`, `local_posts` and
`timeline`, `compute_state_at t` on a freshly constructed engine with
`cache_enabled = true` returns the same state as on an engine with
`cache_enabled = false` holding the same posts and configuration (full
replay from `initial_tick` via `apply_tick`) — for every tick `t`, in
particular every `t ≥` the snapshot window start. -/
theorem claim_C1_cache_equivalence {S P : Type} (room : String) (init : S)
    (on_tick : S → S) (on_post : P → S → S) (smooth : S → S → S)
    (tick_rate tolerance : ℤ) (stride count : ℚ) (ast : ℤ) (pg : Option ℚ)
    (rp : List (ℤ × Post P)) (lp : List (String × Post P))
    (tl : List (ℤ × TimelineBucket P)) (t : ℤ) :
    (({ mkVibi room init on_tick on_post smooth tick_rate tolerance true stride count ast pg with remote_posts := rp, local_posts := lp, timeline := tl } : Vibi S P).compute_state_at t).1 =
      (({ mkVibi room init on_tick on_post smooth tick_rate tolerance false stride count ast pg with remote_posts := rp, local_posts := lp, timeline := tl } : Vibi S P).compute_state_at t).1 := by
  exact Vibi.compute_state_at_cache_eq _ t rfl (le_max_left _ _) (le_max_left _ _) rfl rfl

/-- C4: `official_time` is `client_time` when it exceeds
`server_time - tolerance` and the clamp otherwise; `official_tick` is
the floor of `official_time * tick_rate / 1000`; engines with equal
`tick_rate` and `tolerance` map a post to the identical tick. -/
theorem claim_C4_official_time_tick {S P : Type} (e : Vibi S P) (p : Post P) :
    e.official_time p =
        (if p.server_time - e.tolerance < p.client_time then p.client_time
         else p.server_time - e.tolerance) ∧
    e.official_tick p = ⌊(e.official_time p : ℚ) * (e.tick_rate : ℚ) / 1000⌋ ∧
    ∀ (e' : Vibi S P), e.tick_rate = e'.tick_rate → e.tolerance = e'.tolerance →
      e.official_tick p = e'.official_tick p := by
  have hfd : ∀ a : ℤ, Int.fdiv a 1000 = ⌊((a : ℚ)) / 1000⌋ := by
    intro a
    rw [Int.fdiv_eq_ediv a (by norm_num)]
    rw [show ((1000 : ℚ)) = ((1000 : ℕ) : ℚ) by norm_num]
    rw [Rat.floor_intCast_div_natCast a 1000]
    norm_num
  refine ⟨?_, ?_, ?_⟩
  · unfold Vibi.official_time
    split_ifs <;> omega
  · show Int.fdiv (e.official_time p * e.tick_rate) 1000 = _
    rw [hfd]
    push_cast
    rfl
  · intro e' h1 h2
    unfold Vibi.official_tick Vibi.time_to_tick Vibi.official_time
    rw [h1, h2]

/-- Witness for C4 at a concrete engine, post, and second engine. -/
theorem claim_C4_witness :
    Vibi.official_time engT pB =
        (if pB.server_time - engT.tolerance < pB.client_time then pB.client_time
         else pB.server_time - engT.tolerance) ∧
    Vibi.official_tick engT pB =
        ⌊(Vibi.official_time engT pB : ℚ) * (engT.tick_rate : ℚ) / 1000⌋ ∧
    Vibi.official_tick engT pB = Vibi.official_tick { engT with room := "q" } pB := by
  obtain ⟨h1, h2, h3⟩ := claim_C4_official_time_tick engT pB
  exact ⟨h1, h2, h3 _ rfl rfl⟩

/-- C9: the constructor stores `max(1, floor(snapshot_stride))` and
`max(1, floor(snapshot_count))`, so both are integers `≥ 1` for every
(zero, negative, non-integer) input. -/
theorem claim_C9_constructor_clamp {S P : Type} (room : String) (init : S)
    (on_tick : S → S) (on_post : P → S → S) (smooth : S → S → S)
    (tick_rate tolerance : ℤ) (cache : Bool) (stride count : ℚ)
    (ast : ℤ) (pg : Option ℚ) :
    (mkVibi room init on_tick on_post smooth tick_rate tolerance cache stride count ast pg : Vibi S P).snapshot_stride = max 1 ⌊stride⌋ ∧
    (mkVibi room init on_tick on_post smooth tick_rate tolerance cache stride count ast pg : Vibi S P).snapshot_count = max 1 ⌊count⌋ ∧
    1 ≤ (mkVibi room init on_tick on_post smooth tick_rate tolerance cache stride count ast pg : Vibi S P).snapshot_stride ∧
    1 ≤ (mkVibi room init on_tick on_post smooth tick_rate tolerance cache stride count ast pg : Vibi S P).snapshot_count :=
  ⟨rfl, rfl, le_max_left _ _, le_max_left _ _⟩

/-- C10: removing an absent local post is the identity, so the watch
handler's reconciliation step is harmless for posts of other clients. -/
theorem claim_C10_remove_absent {S P : Type} [DecidableEq P] (e : Vibi S P) (nm : String)
    (h : mapGet e.local_posts nm = none) :
    e.remove_local_post nm = e ∧
    ∀ p : Post P, p.name = some nm → e.watch_handler p = e.add_remote_post p := by
  have h1 : e.remove_local_post nm = e := by
    unfold Vibi.remove_local_post
    rw [h]
  refine ⟨h1, ?_⟩
  intro p hp
  unfold Vibi.watch_handler
  rw [hp]
  show (e.remove_local_post nm).add_remote_post p = e.add_remote_post p
  rw [h1]

/-- Witness for C10 at a concrete engine and post. -/
theorem claim_C10_witness :
    Vibi.remove_local_post engT "a" = engT ∧
    Vibi.watch_handler engT pA = Vibi.add_remote_post engT pA :=
  ⟨(claim_C10_remove_absent engT "a" rfl).1,
   (claim_C10_remove_absent engT "a" rfl).2 pA rfl⟩

/-- C5 (amended): on a well-formed window, `invalidate_from(tick)` with
`tick ≥ start_tick` deletes exactly the snapshots whose tick is
`≥ tick` (so `tick = start_tick` clears all, `tick >` the last snapshot
tick is a no-op); a call with `tick < start_tick` is a no-op rather
than clearing the cache. -/
theorem claim_C5_invalidate {S P : Type} (e : Vibi S P) (st tick : ℤ) (vals : List S)
    (hc : e.cache_enabled = true) (hst : e.snapshot_start_tick = some st)
    (hsnap : e.snapshots = progZip st e.snapshot_stride vals) (hs : 1 ≤ e.snapshot_stride) :
    (st ≤ tick →
      (e.invalidate_from_tick tick).snapshots =
        e.snapshots.filter (fun pr => decide (pr.1 < tick))) ∧
    (tick < st → e.invalidate_from_tick tick = e) := by
  have h := Vibi.invalidate_from_tick_spec e st tick vals hc hst hsnap hs
  constructor
  · intro hle
    rw [h, if_neg (by omega)]
  · intro hlt
    rw [h, if_pos hlt]

/-- Witness for C5 (amended) on a concrete window: invalidating from
tick 12 keeps exactly the snapshot at tick 10. -/
theorem claim_C5_witness :
    (Vibi.invalidate_from_tick engC5 12).snapshots = [(10, 5)] := by
  have h := (claim_C5_invalidate engC5 10 12 [5, 6] rfl rfl rfl (by decide)).1 (by norm_num)
  rw [h]
  decide

/-- Counterexample to C5 as stated: with the window starting at tick 10,
`invalidate_from(5)` (an argument `≤ start_tick`) leaves both stored
snapshots (ticks `≥ 5`) in place instead of clearing them. -/
theorem claim_C5_counterexample :
    Vibi.invalidate_from_tick engC5 5 = engC5 ∧ engC5.snapshots ≠ [] := by
  exact ⟨rfl, by decide⟩

/-- C8 (amended): `compute_render_state` returns
`smooth(state_at(max(0, curr - lag)), state_at(curr))` where the lag is
`max(ceil(tolerance / tick_ms), ceil((rtt / 2) / tick_ms) + 1)` for a
finite RTT, and `max(ceil(tolerance / tick_ms), 1)` — not plain
`ceil(tolerance / tick_ms)` — when `ping()` is infinite. -/
theorem claim_C8_render_lag {S P : Type} (e : Vibi S P) :
    (e.compute_render_state).1 =
      (let tick_ms : ℚ := 1000 / (e.tick_rate : ℚ)
       let tol_ticks : ℤ := ⌈(e.tolerance : ℚ) / tick_ms⌉
       let remote_lag : ℤ :=
         match e.api_ping with
         | some rtt => max tol_ticks (⌈rtt / 2 / tick_ms⌉ + 1)
         | none => max tol_ticks 1
       let remote_tick := max 0 (e.server_tick - remote_lag)
       let r := e.compute_state_at remote_tick
       e.smooth r.1 (r.2.compute_state_at e.server_tick).1) :=
  Vibi.compute_render_state_eq e

/-- Counterexample to C8 as stated: with `tolerance = 0`, `tick_rate = 1`
and an infinite RTT, the code lags by one tick while the claimed
infinite-RTT formula (`ceil(tolerance / tick_ms)` = 0) predicts no lag,
so the rendered states differ. -/
theorem claim_C8_counterexample :
    (Vibi.compute_render_state engC8).1 ≠
      engC8.smooth
        ((Vibi.compute_state_at engC8
          (max 0 (Vibi.server_tick engC8 -
            ⌈(engC8.tolerance : ℚ) / (1000 / (engC8.tick_rate : ℚ))⌉))).1)
        (((Vibi.compute_state_at engC8
          (max 0 (Vibi.server_tick engC8 -
            ⌈(engC8.tolerance : ℚ) / (1000 / (engC8.tick_rate : ℚ))⌉))).2.compute_state_at
            (Vibi.server_tick engC8)).1) := by
  have hceil : (⌈(engC8.tolerance : ℚ) / (1000 / (engC8.tick_rate : ℚ))⌉ : ℤ) = 0 := by
    show (⌈((0 : ℤ) : ℚ) / (1000 / ((1 : ℤ) : ℚ))⌉ : ℤ) = 0
    norm_num
  rw [Vibi.compute_render_state_eq engC8]
  dsimp only
  rw [hceil]
  decide

/-! ### Idempotence of the watch handler (dedup) -/

namespace Vibi

variable {S P : Type}

theorem add_remote_post_eq (e : Vibi S P) (p : Post P) :
    e.add_remote_post p =
      (let tick := e.official_tick p
       let e' := e.initStamp p
       if e'.cache_enabled = true ∧ ∃ st, e'.snapshot_start_tick = some st ∧ tick < st then e'
       else if (mapGet e'.remote_posts p.index).isSome then e'
       else (insert_remote_post { e' with remote_posts := mapSet e'.remote_posts p.index p }
         p tick).invalidate_from_tick tick) := rfl

theorem initStamp_cache (e : Vibi S P) (p : Post P) :
    (e.initStamp p).cache_enabled = e.cache_enabled := by
  unfold initStamp; split <;> rfl

theorem initStamp_sst (e : Vibi S P) (p : Post P) :
    (e.initStamp p).snapshot_start_tick = e.snapshot_start_tick := by
  unfold initStamp; split <;> rfl

theorem initStamp_rp (e : Vibi S P) (p : Post P) :
    (e.initStamp p).remote_posts = e.remote_posts := by
  unfold initStamp; split <;> rfl

theorem initStamp_lp (e : Vibi S P) (p : Post P) :
    (e.initStamp p).local_posts = e.local_posts := by
  unfold initStamp; split <;> rfl

theorem initStamp_tol (e : Vibi S P) (p : Post P) :
    (e.initStamp p).tolerance = e.tolerance := by
  unfold initStamp; split <;> rfl

theorem initStamp_rate (e : Vibi S P) (p : Post P) :
    (e.initStamp p).tick_rate = e.tick_rate := by
  unfold initStamp; split <;> rfl

theorem official_tick_congr (e₁ e₂ : Vibi S P) (p : Post P)
    (h1 : e₁.tolerance = e₂.tolerance) (h2 : e₁.tick_rate = e₂.tick_rate) :
    e₁.official_tick p = e₂.official_tick p := by
  unfold official_tick time_to_tick official_time
  rw [h1, h2]

theorem initStamp_initStamp (e : Vibi S P) (p : Post P) :
    (e.initStamp p).initStamp p = e.initStamp p := by
  unfold initStamp
  split
  · split
    · next h1 h2 => simp at h2
    · rfl
  · rfl

theorem initStamp_isSome (e : Vibi S P) (p : Post P) (h : p.index = 0) :
    ((e.initStamp p).initial_time_value).isSome := by
  unfold initStamp
  split
  · rfl
  · next hcond =>
    rcases hit : e.initial_time_value with _ | v
    · exact absurd ⟨h, hit⟩ hcond
    · rfl

theorem insert_remote_post_proj (e : Vibi S P) (p : Post P) (t : ℤ) :
    (e.insert_remote_post p t).remote_posts = e.remote_posts ∧
    (e.insert_remote_post p t).local_posts = e.local_posts ∧
    (e.insert_remote_post p t).cache_enabled = e.cache_enabled ∧
    (e.insert_remote_post p t).snapshot_start_tick = e.snapshot_start_tick ∧
    (e.insert_remote_post p t).tolerance = e.tolerance ∧
    (e.insert_remote_post p t).tick_rate = e.tick_rate ∧
    (e.insert_remote_post p t).initial_time_value = e.initial_time_value ∧
    (e.insert_remote_post p t).snapshots = e.snapshots :=
  ⟨rfl, rfl, rfl, rfl, rfl, rfl, rfl, rfl⟩

theorem invalidate_from_tick_shape (e : Vibi S P) (t : ℤ) :
    ∃ sn, e.invalidate_from_tick t = { e with snapshots := sn } := by
  unfold invalidate_from_tick
  split
  · exact ⟨e.snapshots, rfl⟩
  · split
    · exact ⟨e.snapshots, rfl⟩
    · dsimp only
      split_ifs <;> exact ⟨_, rfl⟩

theorem invalidate_from_tick_proj (e : Vibi S P) (t : ℤ) :
    (e.invalidate_from_tick t).remote_posts = e.remote_posts ∧
    (e.invalidate_from_tick t).local_posts = e.local_posts ∧
    (e.invalidate_from_tick t).cache_enabled = e.cache_enabled ∧
    (e.invalidate_from_tick t).snapshot_start_tick = e.snapshot_start_tick ∧
    (e.invalidate_from_tick t).tolerance = e.tolerance ∧
    (e.invalidate_from_tick t).tick_rate = e.tick_rate ∧
    (e.invalidate_from_tick t).initial_time_value = e.initial_time_value ∧
    (e.invalidate_from_tick t).timeline = e.timeline := by
  obtain ⟨sn, hsn⟩ := invalidate_from_tick_shape e t
  rw [hsn]
  exact ⟨rfl, rfl, rfl, rfl, rfl, rfl, rfl, rfl⟩

end Vibi

theorem mapGet_mapDelete_self {κ α : Type} [DecidableEq κ] (m : List (κ × α)) (k : κ)
    (hnd : m.Pairwise (fun a b => a.1 ≠ b.1)) : mapGet (mapDelete m k) k = none := by
  induction m with
  | nil => rfl
  | cons hd tl ih =>
    obtain ⟨k', v⟩ := hd
    rcases List.pairwise_cons.mp hnd with ⟨hhd, htl⟩
    by_cases h : k' = k
    · subst h
      simp only [mapDelete, if_pos rfl]
      rw [mapGet_eq_none_iff]
      intro pr hpr
      exact (hhd pr hpr).symm
    · simp only [mapDelete, if_neg h, mapGet, if_neg h]
      exact ih htl

namespace Vibi

variable {S P : Type}

theorem remove_local_post_absent [DecidableEq P] (e : Vibi S P) (nm : String)
    (h : mapGet e.local_posts nm = none) : e.remove_local_post nm = e := by
  unfold remove_local_post
  rw [h]

theorem inv_shape_exists (e₀ : Vibi S P) (lp0 : List (String × Post P))
    (tl0 : List (ℤ × TimelineBucket P)) (t : ℤ) :
    ∃ lp tl sn,
      ({ e₀ with local_posts := lp0, timeline := tl0 } : Vibi S P).invalidate_from_tick t =
        { e₀ with local_posts := lp, timeline := tl, snapshots := sn } := by
  obtain ⟨sn, hsn⟩ :=
    invalidate_from_tick_shape ({ e₀ with local_posts := lp0, timeline := tl0 } : Vibi S P) t
  exact ⟨lp0, tl0, sn, hsn⟩

theorem remove_local_post_shape [DecidableEq P] (e : Vibi S P) (nm : String) :
    ∃ lp tl sn, e.remove_local_post nm =
      { e with local_posts := lp, timeline := tl, snapshots := sn } := by
  unfold remove_local_post
  rcases h : mapGet e.local_posts nm with _ | post
  · exact ⟨e.local_posts, e.timeline, e.snapshots, rfl⟩
  · dsimp only
    split
    · exact inv_shape_exists e _ _ _
    · split_ifs <;> exact inv_shape_exists e _ _ _

end Vibi

namespace Vibi

variable {S P : Type}

theorem remove_local_post_lp [DecidableEq P] (e : Vibi S P) (nm : String) :
    ((e.remove_local_post nm).local_posts = e.local_posts ∧ mapGet e.local_posts nm = none) ∨
    (e.remove_local_post nm).local_posts = mapDelete e.local_posts nm := by
  unfold remove_local_post
  rcases h : mapGet e.local_posts nm with _ | post
  · exact Or.inl ⟨rfl, rfl⟩
  · right
    dsimp only
    rw [(invalidate_from_tick_proj _ _).2.1]
    split
    · rfl
    · split_ifs <;> rfl

theorem remove_local_post_get_none [DecidableEq P] (e : Vibi S P) (nm : String)
    (hnd : e.local_posts.Pairwise (fun a b => a.1 ≠ b.1)) :
    mapGet (e.remove_local_post nm).local_posts nm = none := by
  rcases remove_local_post_lp e nm with ⟨h1, h2⟩ | h1
  · rw [h1]
    exact h2
  · rw [h1]
    exact mapGet_mapDelete_self e.local_posts nm hnd

theorem remove_local_post_proj [DecidableEq P] (e : Vibi S P) (nm : String) :
    (e.remove_local_post nm).remote_posts = e.remote_posts ∧
    (e.remove_local_post nm).cache_enabled = e.cache_enabled ∧
    (e.remove_local_post nm).snapshot_start_tick = e.snapshot_start_tick ∧
    (e.remove_local_post nm).tolerance = e.tolerance ∧
    (e.remove_local_post nm).tick_rate = e.tick_rate ∧
    (e.remove_local_post nm).initial_time_value = e.initial_time_value := by
  obtain ⟨lp, tl, sn, hsh⟩ := remove_local_post_shape e nm
  rw [hsh]
  exact ⟨rfl, rfl, rfl, rfl, rfl, rfl⟩

theorem add_remote_post_lp (e : Vibi S P) (p : Post P) :
    (e.add_remote_post p).local_posts = e.local_posts := by
  rw [add_remote_post_eq]
  dsimp only
  split_ifs
  · exact initStamp_lp e p
  · exact initStamp_lp e p
  · rw [(invalidate_from_tick_proj _ _).2.1, (insert_remote_post_proj _ _ _).2.1]
    exact initStamp_lp e p

theorem add_remote_post_proj (e : Vibi S P) (p : Post P) :
    (e.add_remote_post p).cache_enabled = e.cache_enabled ∧
    (e.add_remote_post p).snapshot_start_tick = e.snapshot_start_tick ∧
    (e.add_remote_post p).tolerance = e.tolerance ∧
    (e.add_remote_post p).tick_rate = e.tick_rate := by
  rw [add_remote_post_eq]
  dsimp only
  split_ifs
  · exact ⟨initStamp_cache e p, initStamp_sst e p, initStamp_tol e p, initStamp_rate e p⟩
  · exact ⟨initStamp_cache e p, initStamp_sst e p, initStamp_tol e p, initStamp_rate e p⟩
  · obtain ⟨v1, v2, v3, v4, v5, v6, v7, v8⟩ := invalidate_from_tick_proj
      (insert_remote_post { e.initStamp p with
        remote_posts := mapSet (e.initStamp p).remote_posts p.index p } p (e.official_tick p))
      (e.official_tick p)
    obtain ⟨w1, w2, w3, w4, w5, w6, w7, w8⟩ := insert_remote_post_proj
      ({ e.initStamp p with
        remote_posts := mapSet (e.initStamp p).remote_posts p.index p }) p (e.official_tick p)
    refine ⟨?_, ?_, ?_, ?_⟩
    · rw [v3, w3]
      exact initStamp_cache e p
    · rw [v4, w4]
      exact initStamp_sst e p
    · rw [v5, w5]
      exact initStamp_tol e p
    · rw [v6, w6]
      exact initStamp_rate e p

theorem add_remote_post_itv (e : Vibi S P) (p : Post P) :
    (e.add_remote_post p).initial_time_value = (e.initStamp p).initial_time_value := by
  rw [add_remote_post_eq]
  dsimp only
  split_ifs
  · rfl
  · rfl
  · rw [(invalidate_from_tick_proj _ _).2.2.2.2.2.2.1,
      (insert_remote_post_proj _ _ _).2.2.2.2.2.2.1]

theorem add_remote_post_idem (e : Vibi S P) (p : Post P) :
    (e.add_remote_post p).add_remote_post p = e.add_remote_post p := by
  by_cases hbw : (e.initStamp p).cache_enabled = true ∧
      ∃ st, (e.initStamp p).snapshot_start_tick = some st ∧ e.official_tick p < st
  · have h1 : e.add_remote_post p = e.initStamp p := by
      rw [add_remote_post_eq]
      dsimp only
      rw [if_pos hbw]
    rw [h1, add_remote_post_eq]
    dsimp only
    rw [initStamp_initStamp,
      official_tick_congr (e.initStamp p) e p (initStamp_tol e p) (initStamp_rate e p),
      if_pos hbw]
  · by_cases hdup : (mapGet e.remote_posts p.index).isSome
    · have hdup' : (mapGet (e.initStamp p).remote_posts p.index).isSome = true := by
        rw [initStamp_rp]
        exact hdup
      have h1 : e.add_remote_post p = e.initStamp p := by
        rw [add_remote_post_eq]
        dsimp only
        rw [if_neg hbw, if_pos hdup']
      rw [h1, add_remote_post_eq]
      dsimp only
      rw [initStamp_initStamp,
        official_tick_congr (e.initStamp p) e p (initStamp_tol e p) (initStamp_rate e p),
        if_neg hbw, if_pos hdup']
    · have hdup' : ¬ ((mapGet (e.initStamp p).remote_posts p.index).isSome = true) := by
        rw [initStamp_rp]
        exact hdup
      have h1 : e.add_remote_post p =
          (insert_remote_post { e.initStamp p with
            remote_posts := mapSet (e.initStamp p).remote_posts p.index p } p
            (e.official_tick p)).invalidate_from_tick (e.official_tick p) := by
        rw [add_remote_post_eq]
        dsimp only
        rw [if_neg hbw, if_neg hdup']
      obtain ⟨v1, v2, v3, v4, v5, v6, v7, v8⟩ := invalidate_from_tick_proj
        (insert_remote_post { e.initStamp p with
          remote_posts := mapSet (e.initStamp p).remote_posts p.index p } p (e.official_tick p))
        (e.official_tick p)
      obtain ⟨w1, w2, w3, w4, w5, w6, w7, w8⟩ := insert_remote_post_proj
        ({ e.initStamp p with
          remote_posts := mapSet (e.initStamp p).remote_posts p.index p }) p (e.official_tick p)
      set E₂ := (insert_remote_post { e.initStamp p with
        remote_posts := mapSet (e.initStamp p).remote_posts p.index p } p
        (e.official_tick p)).invalidate_from_tick (e.official_tick p) with hE₂
      have hce : E₂.cache_enabled = (e.initStamp p).cache_enabled := by
        rw [hE₂, v3, w3]
      have hsst2 : E₂.snapshot_start_tick = (e.initStamp p).snapshot_start_tick := by
        rw [hE₂, v4, w4]
      have htol2 : E₂.tolerance = e.tolerance := by
        rw [hE₂, v5, w5]
        exact initStamp_tol e p
      have hrate2 : E₂.tick_rate = e.tick_rate := by
        rw [hE₂, v6, w6]
        exact initStamp_rate e p
      have hrp2 : E₂.remote_posts = mapSet (e.initStamp p).remote_posts p.index p := by
        rw [hE₂, v1, w1]
      have hitv2 : E₂.initial_time_value = (e.initStamp p).initial_time_value := by
        rw [hE₂, v7, w7]
      have hstamp2 : E₂.initStamp p = E₂ := by
        unfold initStamp
        split
        · next hcond =>
          exfalso
          obtain ⟨hidx, hnone⟩ := hcond
          have hsome := initStamp_isSome e p hidx
          rw [hitv2] at hnone
          rw [hnone] at hsome
          simp at hsome
        · rfl
      rw [h1, add_remote_post_eq]
      dsimp only
      rw [hstamp2, official_tick_congr E₂ e p htol2 hrate2]
      rw [if_neg (by rw [hce, hsst2]; exact hbw),
        if_pos (by rw [hrp2]; simp [mapGet_mapSet_self])]

theorem watch_handler_idem [DecidableEq P] (e : Vibi S P) (p : Post P)
    (hnd : e.local_posts.Pairwise (fun a b => a.1 ≠ b.1)) :
    (e.watch_handler p).watch_handler p = e.watch_handler p := by
  unfold watch_handler
  rcases hnm : p.name with _ | nm
  · dsimp only
    exact add_remote_post_idem e p
  · dsimp only
    have h1 : mapGet ((e.remove_local_post nm).add_remote_post p).local_posts nm = none := by
      rw [add_remote_post_lp]
      exact remove_local_post_get_none e nm hnd
    rw [remove_local_post_absent _ nm h1]
    exact add_remote_post_idem _ p

theorem add_remote_post_count (e : Vibi S P) (p : Post P)
    (hbw : ¬ (e.cache_enabled = true ∧
      ∃ st, e.snapshot_start_tick = some st ∧ e.official_tick p < st))
    (hdup : mapGet e.remote_posts p.index = none) :
    (e.add_remote_post p).post_count = e.post_count + 1 := by
  have hbw' : ¬ ((e.initStamp p).cache_enabled = true ∧
      ∃ st, (e.initStamp p).snapshot_start_tick = some st ∧ e.official_tick p < st) := by
    rw [initStamp_cache, initStamp_sst]
    exact hbw
  have hdup' : ¬ ((mapGet (e.initStamp p).remote_posts p.index).isSome = true) := by
    rw [initStamp_rp, hdup]
    simp
  rw [add_remote_post_eq]
  dsimp only
  rw [if_neg hbw', if_neg hdup']
  show ((insert_remote_post _ p _).invalidate_from_tick _).remote_posts.length = _
  rw [(invalidate_from_tick_proj _ _).1, (insert_remote_post_proj _ _ _).1]
  show (mapSet (e.initStamp p).remote_posts p.index p).length = e.remote_posts.length + 1
  rw [initStamp_rp, length_mapSet_of_none p hdup]

end Vibi

namespace Vibi

variable {S P : Type}

theorem watch_handler_count [DecidableEq P] (e : Vibi S P) (p : Post P)
    (hbw : ¬ (e.cache_enabled = true ∧
      ∃ st, e.snapshot_start_tick = some st ∧ e.official_tick p < st))
    (hdup : mapGet e.remote_posts p.index = none) :
    (e.watch_handler p).post_count = e.post_count + 1 := by
  unfold watch_handler
  rcases hnm : p.name with _ | nm
  · dsimp only
    exact add_remote_post_count e p hbw hdup
  · dsimp only
    obtain ⟨hrp, hce, hsst, htol, hrate, hitv⟩ := remove_local_post_proj e nm
    have hot : (e.remove_local_post nm).official_tick p = e.official_tick p :=
      official_tick_congr _ e p htol hrate
    have h := add_remote_post_count (e.remove_local_post nm) p
      (by rw [hce, hsst, hot]; exact hbw) (by rw [hrp]; exact hdup)
    rw [h]
    show (e.remove_local_post nm).remote_posts.length + 1 = e.remote_posts.length + 1
    rw [hrp]

end Vibi

/-- C6: delivering the same remote post twice to the watch handler is
idempotent: the second delivery leaves the engine literally unchanged (given
that local-post names are stored without duplicates, as in a JS `Map`), hence
`compute_state_at t` agrees for every `t`.  `post_count` goes up by exactly 1
across the two deliveries provided the first delivery is actually accepted:
the post's index is not already present and the post does not land before the
snapshot window (`add_remote_post`, vibi.ts lines 251-275). -/
theorem claim_C6_dedup {S P : Type} [DecidableEq P] (e : Vibi S P) (p : Post P)
    (hnd : e.local_posts.Pairwise (fun a b => a.1 ≠ b.1)) :
    (e.watch_handler p).watch_handler p = e.watch_handler p ∧
    (∀ t, (((e.watch_handler p).watch_handler p).compute_state_at t).1 =
      ((e.watch_handler p).compute_state_at t).1) ∧
    (¬ (e.cache_enabled = true ∧
        ∃ st, e.snapshot_start_tick = some st ∧ e.official_tick p < st) →
      mapGet e.remote_posts p.index = none →
      (e.watch_handler p).post_count = e.post_count + 1 ∧
      ((e.watch_handler p).watch_handler p).post_count = e.post_count + 1) := by
  have hid := Vibi.watch_handler_idem e p hnd
  refine ⟨hid, fun t => by rw [hid], fun hbw hdup => ?_⟩
  have hc := Vibi.watch_handler_count e p hbw hdup
  exact ⟨hc, by rw [hid]; exact hc⟩

/-- Witness for C6 at a concrete engine and post: the fresh engine `engT`
accepts `pA`, the second delivery is a no-op, and the count goes from 0 to 1. -/
theorem claim_C6_witness :
    (engT.watch_handler pA).watch_handler pA = engT.watch_handler pA ∧
    (((engT.watch_handler pA).watch_handler pA).compute_state_at 3).1 =
      ((engT.watch_handler pA).compute_state_at 3).1 ∧
    (engT.watch_handler pA).post_count = engT.post_count + 1 := by
  obtain ⟨h1, h2, h3⟩ := claim_C6_dedup engT pA (by simp [engT, mkVibi])
  have hbw : ¬ (engT.cache_enabled = true ∧
      ∃ st, engT.snapshot_start_tick = some st ∧ engT.official_tick pA < st) := by
    rintro ⟨-, st, hst, -⟩
    simp [engT, mkVibi] at hst
  exact ⟨h1, h2 3, (h3 hbw rfl).1⟩

/-- Counterexample for the unconditional reading of C6: on the engine `engC6`
whose snapshot window starts at tick 10, the post `pC6` (official tick 0) is
dropped by the before-window guard, so even a first-time delivery of a fresh
index leaves `post_count` unchanged instead of incrementing it. -/
theorem claim_C6_counterexample :
    ¬ (((engC6.watch_handler pC6).watch_handler pC6).post_count
        = engC6.post_count + 1) := by
  decide

/-! ### Sorted buckets and arrival-order independence -/

namespace Vibi

variable {S P : Type}

theorem pairwise_idx_inj {l : List (Post P)}
    (h : List.Pairwise (fun a b : Post P => a.index ≠ b.index) l) :
    ∀ p ∈ l, ∀ q ∈ l, p.index = q.index → p = q := by
  induction l with
  | nil => simp
  | cons a t ih =>
    intro p hp q hq heq
    rcases List.mem_cons.mp hp with rfl | hp'
    · rcases List.mem_cons.mp hq with rfl | hq'
      · rfl
      · exact absurd heq (List.rel_of_pairwise_cons h hq')
    · rcases List.mem_cons.mp hq with rfl | hq'
      · exact absurd heq.symm (List.rel_of_pairwise_cons h hp')
      · exact ih h.of_cons p hp' q hq' heq

/-- Two `idxLE`-sorted lists with the same elements are equal when the
elements have pairwise-injective indices (no antisymmetry of `idxLE` on
all of `Post P` is needed). -/
theorem sorted_idx_eq : ∀ {l₁ l₂ : List (Post P)}, l₁.Perm l₂ →
    List.Pairwise idxLE l₁ → List.Pairwise idxLE l₂ →
    (∀ p ∈ l₁, ∀ q ∈ l₁, p.index = q.index → p = q) → l₁ = l₂ := by
  intro l₁
  induction l₁ with
  | nil =>
    intro l₂ hp _ _ _
    exact (hp.symm.eq_nil).symm
  | cons a t ih =>
    intro l₂ hp hs₁ hs₂ hinj
    cases l₂ with
    | nil => exact absurd hp.eq_nil (by simp)
    | cons b t₂ =>
      by_cases hab : a = b
      · subst hab
        have ht := ih hp.cons_inv hs₁.of_cons hs₂.of_cons
          (fun p hp' q hq' => hinj p (List.mem_cons_of_mem a hp') q (List.mem_cons_of_mem a hq'))
        rw [ht]
      · have hbmem : b ∈ t := by
          rcases List.mem_cons.mp (hp.symm.mem_iff.mp (List.mem_cons_self b t₂)) with h | h
          · exact absurd h.symm hab
          · exact h
        have hamem : a ∈ t₂ := by
          rcases List.mem_cons.mp (hp.mem_iff.mp (List.mem_cons_self a t)) with h | h
          · exact absurd h hab
          · exact h
        have h1 : idxLE a b := List.rel_of_pairwise_cons hs₁ hbmem
        have h2 : idxLE b a := List.rel_of_pairwise_cons hs₂ hamem
        have heq : a.index = b.index := le_antisymm h1 h2
        exact absurd (hinj a (List.mem_cons_self a t) b (List.mem_cons_of_mem a hbmem) heq) hab

theorem sortByIndex_perm (l : List (Post P)) : (sortByIndex l).Perm l :=
  List.perm_insertionSort idxLE l

theorem sortByIndex_sorted (l : List (Post P)) : List.Pairwise idxLE (sortByIndex l) :=
  List.sorted_insertionSort idxLE l

theorem sortByIndex_eq_of_perm {l₁ l₂ : List (Post P)} (hperm : l₁.Perm l₂)
    (hinj : ∀ p ∈ l₁, ∀ q ∈ l₁, p.index = q.index → p = q) :
    sortByIndex l₁ = sortByIndex l₂ := by
  refine sorted_idx_eq ((sortByIndex_perm l₁).trans (hperm.trans (sortByIndex_perm l₂).symm))
    (sortByIndex_sorted l₁) (sortByIndex_sorted l₂) ?_
  intro p hp q hq
  exact hinj p ((sortByIndex_perm l₁).mem_iff.mp hp) q ((sortByIndex_perm l₁).mem_iff.mp hq)

/-- Re-sorting an already sorted bucket with one new post appended is
the sort of the plain appended list. -/
theorem sortByIndex_sort_append (xs : List (Post P)) (p : Post P)
    (hinj : ∀ a ∈ xs ++ [p], ∀ b ∈ xs ++ [p], a.index = b.index → a = b) :
    sortByIndex (sortByIndex xs ++ [p]) = sortByIndex (xs ++ [p]) := by
  have hperm : (sortByIndex xs ++ [p]).Perm (xs ++ [p]) :=
    (sortByIndex_perm xs).append_right [p]
  refine sortByIndex_eq_of_perm hperm ?_
  intro a ha b hb
  exact hinj a (hperm.mem_iff.mp ha) b (hperm.mem_iff.mp hb)

theorem mapGet_idx_none (acc : List (Post P)) (i : ℤ) (h : ∀ q ∈ acc, q.index ≠ i) :
    mapGet (acc.map (fun p => (p.index, p))) i = none := by
  induction acc with
  | nil => rfl
  | cons a t ih =>
    show mapGet ((a.index, a) :: t.map (fun p => (p.index, p))) i = none
    rw [mapGet, if_neg (h a (List.mem_cons_self a t))]
    exact ih (fun q hq => h q (List.mem_cons_of_mem a hq))

theorem mapGet_idx_some (acc : List (Post P)) (p : Post P) (hp : p ∈ acc)
    (hnd : List.Pairwise (fun a b : Post P => a.index ≠ b.index) acc) :
    mapGet (acc.map (fun q => (q.index, q))) p.index = some p := by
  induction acc with
  | nil => simp at hp
  | cons a t ih =>
    show mapGet ((a.index, a) :: t.map (fun q => (q.index, q))) p.index = some p
    rcases List.mem_cons.mp hp with rfl | hp'
    · rw [mapGet, if_pos rfl]
    · rw [mapGet, if_neg (List.rel_of_pairwise_cons hnd hp')]
      exact ih hp' hnd.of_cons

end Vibi

theorem dedupA_subset {P : Type} :
    ∀ (l : List (Post P)) (seen : List ℤ) (p : Post P),
      p ∈ dedupByIndexAux seen l → p ∈ l ∧ p.index ∉ seen := by
  intro l
  induction l with
  | nil => intro seen p h; simp [dedupByIndexAux] at h
  | cons q qs ih =>
    intro seen p h
    by_cases hq : q.index ∈ seen
    · rw [dedupByIndexAux, if_pos hq] at h
      obtain ⟨h1, h2⟩ := ih seen p h
      exact ⟨List.mem_cons_of_mem q h1, h2⟩
    · rw [dedupByIndexAux, if_neg hq] at h
      rcases List.mem_cons.mp h with rfl | h'
      · exact ⟨List.mem_cons_self p qs, hq⟩
      · obtain ⟨h1, h2⟩ := ih (q.index :: seen) p h'
        exact ⟨List.mem_cons_of_mem q h1, fun hc => h2 (List.mem_cons_of_mem _ hc)⟩

theorem mem_dedupA {P : Type} :
    ∀ (l : List (Post P)) (seen : List ℤ) (p : Post P), p ∈ l → p.index ∉ seen →
      (∀ a ∈ l, ∀ b ∈ l, a.index = b.index → a = b) → p ∈ dedupByIndexAux seen l := by
  intro l
  induction l with
  | nil => intro seen p h; simp at h
  | cons q qs ih =>
    intro seen p hp hseen hU
    by_cases hq : q.index ∈ seen
    · rw [dedupByIndexAux, if_pos hq]
      rcases List.mem_cons.mp hp with rfl | hp'
      · exact absurd hq hseen
      · exact ih seen p hp' hseen
          (fun a ha b hb => hU a (List.mem_cons_of_mem q ha) b (List.mem_cons_of_mem q hb))
    · rw [dedupByIndexAux, if_neg hq]
      rcases List.mem_cons.mp hp with rfl | hp'
      · exact List.mem_cons_self p _
      · by_cases hpq : p.index = q.index
        · have : p = q := hU p (List.mem_cons_of_mem q hp') q (List.mem_cons_self q qs) hpq
          subst this
          exact List.mem_cons_self p _
        · refine List.mem_cons_of_mem q (ih (q.index :: seen) p hp' ?_ ?_)
          · intro hc
            rcases List.mem_cons.mp hc with h | h
            · exact hpq h
            · exact hseen h
          · exact fun a ha b hb => hU a (List.mem_cons_of_mem q ha) b (List.mem_cons_of_mem q hb)

theorem dedupA_pairwise {P : Type} :
    ∀ (l : List (Post P)) (seen : List ℤ),
      List.Pairwise (fun a b : Post P => a.index ≠ b.index) (dedupByIndexAux seen l) := by
  intro l
  induction l with
  | nil => intro seen; exact List.Pairwise.nil
  | cons q qs ih =>
    intro seen
    by_cases hq : q.index ∈ seen
    · rw [dedupByIndexAux, if_pos hq]
      exact ih seen
    · rw [dedupByIndexAux, if_neg hq]
      refine List.pairwise_cons.mpr ⟨?_, ih (q.index :: seen)⟩
      intro b hb
      have := (dedupA_subset qs (q.index :: seen) b hb).2
      intro hc
      exact this (hc ▸ List.mem_cons_self q.index seen)

theorem mem_dedup_iff {P : Type} (l : List (Post P)) (hU : UniqIdx l) (p : Post P) :
    p ∈ dedupByIndex l ↔ p ∈ l :=
  ⟨fun h => (dedupA_subset l [] p h).1, fun h => mem_dedupA l [] p h (by simp) hU⟩

theorem dedupA_congr {P : Type} :
    ∀ (l : List (Post P)) (s₁ s₂ : List ℤ), (∀ i, i ∈ s₁ ↔ i ∈ s₂) →
      dedupByIndexAux s₁ l = dedupByIndexAux s₂ l := by
  intro l
  induction l with
  | nil => intro s₁ s₂ _; rfl
  | cons q qs ih =>
    intro s₁ s₂ h
    by_cases hq : q.index ∈ s₁
    · rw [dedupByIndexAux, if_pos hq, dedupByIndexAux, if_pos ((h q.index).mp hq)]
      exact ih s₁ s₂ h
    · rw [dedupByIndexAux, if_neg hq, dedupByIndexAux, if_neg (fun hc => hq ((h q.index).mpr hc))]
      rw [ih (q.index :: s₁) (q.index :: s₂) (fun i => by simp [h i])]

namespace Vibi

variable {S P : Type}

theorem invalidate_sst_none (e : Vibi S P) (t : ℤ) (h : e.snapshot_start_tick = none) :
    e.invalidate_from_tick t = e := by
  unfold invalidate_from_tick
  split
  · rfl
  · rw [h]

theorem initStamp_id (e : Vibi S P) (p : Post P)
    (h : ¬ (p.index = 0 ∧ e.initial_time_value = none)) : e.initStamp p = e := by
  unfold initStamp
  rw [if_neg h]

theorem initStamp_init (e : Vibi S P) (p : Post P) : (e.initStamp p).init = e.init := by
  unfold initStamp; split <;> rfl

theorem initStamp_on_tick (e : Vibi S P) (p : Post P) :
    (e.initStamp p).on_tick = e.on_tick := by
  unfold initStamp; split <;> rfl

theorem initStamp_on_post (e : Vibi S P) (p : Post P) :
    (e.initStamp p).on_post = e.on_post := by
  unfold initStamp; split <;> rfl

theorem initStamp_stride (e : Vibi S P) (p : Post P) :
    (e.initStamp p).snapshot_stride = e.snapshot_stride := by
  unfold initStamp; split <;> rfl

theorem initStamp_count (e : Vibi S P) (p : Post P) :
    (e.initStamp p).snapshot_count = e.snapshot_count := by
  unfold initStamp; split <;> rfl

theorem initStamp_snaps (e : Vibi S P) (p : Post P) :
    (e.initStamp p).snapshots = e.snapshots := by
  unfold initStamp; split <;> rfl

theorem initStamp_tml (e : Vibi S P) (p : Post P) :
    (e.initStamp p).timeline = e.timeline := by
  unfold initStamp; split <;> rfl

theorem initStamp_itv (e : Vibi S P) (p : Post P) :
    (e.initStamp p).initial_time_value =
      if p.index = 0 ∧ e.initial_time_value = none then some (e.official_time p)
      else e.initial_time_value := by
  unfold initStamp; split_ifs <;> rfl

theorem initStamp_ivt (e : Vibi S P) (p : Post P) :
    (e.initStamp p).initial_tick_value =
      if p.index = 0 ∧ e.initial_time_value = none then
        some (e.time_to_tick (e.official_time p))
      else e.initial_tick_value := by
  unfold initStamp; split_ifs <;> rfl

theorem official_time_congr (e₁ e₂ : Vibi S P) (p : Post P)
    (h : e₁.tolerance = e₂.tolerance) : e₁.official_time p = e₂.official_time p := by
  unfold official_time
  rw [h]

theorem time_to_tick_congr (e₁ e₂ : Vibi S P) (t : ℤ)
    (h : e₁.tick_rate = e₂.tick_rate) : e₁.time_to_tick t = e₂.time_to_tick t := by
  unfold time_to_tick
  rw [h]

theorem watch_handler_of_lp_nil [DecidableEq P] (e : Vibi S P) (p : Post P)
    (h : e.local_posts = []) : e.watch_handler p = e.add_remote_post p := by
  unfold watch_handler
  rcases hn : p.name with _ | nm
  · rfl
  · dsimp only
    rw [remove_local_post_absent e nm (by rw [h]; rfl)]

theorem insert_remote_post_tml (e : Vibi S P) (p : Post P) (t : ℤ) :
    (e.insert_remote_post p t).timeline =
      mapSet e.timeline t
        { e.getBucketD t with remote := sortByIndex ((e.getBucketD t).remote ++ [p]) } := rfl

theorem insert_remote_post_init (e : Vibi S P) (p : Post P) (t : ℤ) :
    (e.insert_remote_post p t).init = e.init ∧
    (e.insert_remote_post p t).on_tick = e.on_tick ∧
    (e.insert_remote_post p t).on_post = e.on_post ∧
    (e.insert_remote_post p t).snapshot_stride = e.snapshot_stride ∧
    (e.insert_remote_post p t).snapshot_count = e.snapshot_count ∧
    (e.insert_remote_post p t).initial_tick_value = e.initial_tick_value :=
  ⟨rfl, rfl, rfl, rfl, rfl, rfl⟩

theorem invalidate_proj_more (e : Vibi S P) (t : ℤ) :
    (e.invalidate_from_tick t).init = e.init ∧
    (e.invalidate_from_tick t).on_tick = e.on_tick ∧
    (e.invalidate_from_tick t).on_post = e.on_post ∧
    (e.invalidate_from_tick t).snapshot_stride = e.snapshot_stride ∧
    (e.invalidate_from_tick t).snapshot_count = e.snapshot_count ∧
    (e.invalidate_from_tick t).initial_tick_value = e.initial_tick_value := by
  obtain ⟨sn, hsn⟩ := invalidate_from_tick_shape e t
  rw [hsn]
  exact ⟨rfl, rfl, rfl, rfl, rfl, rfl⟩

end Vibi

namespace Vibi

variable {S P : Type}

/-- One broker delivery preserves the ingestion invariant: a fresh index
is accepted (appended to the accepted list), a duplicate index is
dropped. -/
theorem ingest_inv_step [DecidableEq P] (e₀ e : Vibi S P) (acc : List (Post P)) (p : Post P)
    (hinv : IngestInv e₀ e acc) :
    IngestInv e₀ (e.watch_handler p)
      (if ∀ q ∈ acc, q.index ≠ p.index then acc ++ [p] else acc) := by
  obtain ⟨h_init, h_ot, h_op, h_tol, h_rate, h_cache, h_ss, h_sc, h_sn, h_sst, h_lp, h_rp,
    h_nd, h_tml, h_itv⟩ := hinv
  rw [watch_handler_of_lp_nil e p h_lp, add_remote_post_eq]
  dsimp only
  rw [if_neg (show ¬ ((e.initStamp p).cache_enabled = true ∧
      ∃ st, (e.initStamp p).snapshot_start_tick = some st ∧ e.official_tick p < st) from by
    rintro ⟨-, st, hst, -⟩
    rw [initStamp_sst, h_sst] at hst
    cases hst)]
  have htick : e.official_tick p = e₀.official_tick p := official_tick_congr e e₀ p h_tol h_rate
  by_cases hfresh : ∀ q ∈ acc, q.index ≠ p.index
  · rw [if_pos hfresh]
    have hnone : mapGet (acc.map (fun q => (q.index, q))) p.index = none :=
      mapGet_idx_none acc p.index hfresh
    rw [if_neg (show ¬ ((mapGet (e.initStamp p).remote_posts p.index).isSome = true) from by
      rw [initStamp_rp, h_rp, hnone]
      simp)]
    rw [invalidate_sst_none _ _ (show (insert_remote_post
        { e.initStamp p with remote_posts := mapSet (e.initStamp p).remote_posts p.index p }
        p (e.official_tick p)).snapshot_start_tick = none from by
      show (e.initStamp p).snapshot_start_tick = none
      rw [initStamp_sst, h_sst])]
    have hnd' : List.Pairwise (fun a b : Post P => a.index ≠ b.index) (acc ++ [p]) := by
      rw [List.pairwise_append]
      refine ⟨h_nd, List.pairwise_singleton _ _, ?_⟩
      intro a ha b hb
      rw [List.mem_singleton] at hb
      subst hb
      exact hfresh a ha
    refine ⟨?_, ?_, ?_, ?_, ?_, ?_, ?_, ?_, ?_, ?_, ?_, ?_, hnd', ?_, ?_⟩
    · show (e.initStamp p).init = e₀.init
      rw [initStamp_init, h_init]
    · show (e.initStamp p).on_tick = e₀.on_tick
      rw [initStamp_on_tick, h_ot]
    · show (e.initStamp p).on_post = e₀.on_post
      rw [initStamp_on_post, h_op]
    · show (e.initStamp p).tolerance = e₀.tolerance
      rw [initStamp_tol, h_tol]
    · show (e.initStamp p).tick_rate = e₀.tick_rate
      rw [initStamp_rate, h_rate]
    · show (e.initStamp p).cache_enabled = e₀.cache_enabled
      rw [initStamp_cache, h_cache]
    · show (e.initStamp p).snapshot_stride = e₀.snapshot_stride
      rw [initStamp_stride, h_ss]
    · show (e.initStamp p).snapshot_count = e₀.snapshot_count
      rw [initStamp_count, h_sc]
    · show (e.initStamp p).snapshots = []
      rw [initStamp_snaps, h_sn]
    · show (e.initStamp p).snapshot_start_tick = none
      rw [initStamp_sst, h_sst]
    · show (e.initStamp p).local_posts = []
      rw [initStamp_lp, h_lp]
    · show mapSet (e.initStamp p).remote_posts p.index p =
        (acc ++ [p]).map (fun q => (q.index, q))
      rw [initStamp_rp, h_rp, mapSet_eq_append_of_none p hnone, List.map_append]
      rfl
    · intro t
      rw [insert_remote_post_tml]
      have hYtml : ({ e.initStamp p with
          remote_posts := mapSet (e.initStamp p).remote_posts p.index p } : Vibi S P).timeline =
          e.timeline := initStamp_tml e p
      have hbkt : ({ e.initStamp p with
          remote_posts := mapSet (e.initStamp p).remote_posts p.index p } : Vibi S P).getBucketD
            (e.official_tick p) =
          (mapGet e.timeline (e.official_tick p)).getD ⟨[], []⟩ := by
        show (mapGet ({ e.initStamp p with
          remote_posts := mapSet (e.initStamp p).remote_posts p.index p } : Vibi S P).timeline
            (e.official_tick p)).getD ⟨[], []⟩ = _
        rw [hYtml]
      rw [hYtml, hbkt]
      by_cases ht : t = e.official_tick p
      · rw [ht, htick, mapGet_mapSet_self, List.filter_append]
        have hfp : List.filter (fun q => decide (e₀.official_tick q = e₀.official_tick p)) [p] =
            [p] := by simp
        rw [hfp]
        rw [if_neg (show ¬ (List.filter
            (fun q => decide (e₀.official_tick q = e₀.official_tick p)) acc ++ [p] = []) from by
          simp)]
        rw [h_tml (e₀.official_tick p)]
        by_cases hemp : List.filter
            (fun q => decide (e₀.official_tick q = e₀.official_tick p)) acc = []
        · rw [if_pos hemp, hemp]
          rfl
        · rw [if_neg hemp]
          show some (⟨sortByIndex (sortByIndex (List.filter
              (fun q => decide (e₀.official_tick q = e₀.official_tick p)) acc) ++ [p]), []⟩ :
              TimelineBucket P) = _
          rw [sortByIndex_sort_append _ _ (pairwise_idx_inj (List.Pairwise.sublist
            ((List.filter_sublist acc).append_right [p]) hnd'))]
      · rw [mapGet_mapSet_ne _ _ (fun hc => ht hc.symm), h_tml t, List.filter_append]
        have hdec : decide (e₀.official_tick p = t) = false := by
          refine decide_eq_false ?_
          intro hc
          rw [← hc] at ht
          exact ht htick.symm
        have hfp : List.filter (fun q => decide (e₀.official_tick q = t)) [p] = [] := by
          simp [hdec]
        rw [hfp, List.append_nil]
    · have hR1 : (insert_remote_post
          { e.initStamp p with remote_posts := mapSet (e.initStamp p).remote_posts p.index p }
          p (e.official_tick p)).initial_time_value = (e.initStamp p).initial_time_value := rfl
      have hR2 : (insert_remote_post
          { e.initStamp p with remote_posts := mapSet (e.initStamp p).remote_posts p.index p }
          p (e.official_tick p)).initial_tick_value = (e.initStamp p).initial_tick_value := rfl
      rw [hR1, hR2, initStamp_itv, initStamp_ivt]
      by_cases hstamp : p.index = 0 ∧ e.initial_time_value = none
      · rw [if_pos hstamp, if_pos hstamp]
        right
        refine ⟨p, List.mem_append_right acc (List.mem_cons_self p []), hstamp.1, ?_, ?_⟩
        · rw [official_time_congr e e₀ p h_tol]
        · rw [official_time_congr e e₀ p h_tol, time_to_tick_congr e e₀ _ h_rate]
      · rw [if_neg hstamp, if_neg hstamp]
        rcases h_itv with ⟨h1, h2, h3⟩ | ⟨p₀, hp₀, hidx, h1, h2⟩
        · left
          refine ⟨h1, h2, ?_⟩
          intro q hq
          rcases List.mem_append.mp hq with hq' | hq'
          · exact h3 q hq'
          · rw [List.mem_singleton] at hq'
            subst hq'
            intro hc
            exact hstamp ⟨hc, h1⟩
        · right
          exact ⟨p₀, List.mem_append_left [p] hp₀, hidx, h1, h2⟩
  · rw [if_neg hfresh]
    push_neg at hfresh
    obtain ⟨q, hq, hqi⟩ := hfresh
    have hsome : mapGet (acc.map (fun r => (r.index, r))) p.index = some q := by
      rw [← hqi]
      exact mapGet_idx_some acc q hq h_nd
    rw [if_pos (show (mapGet (e.initStamp p).remote_posts p.index).isSome = true from by
      rw [initStamp_rp, h_rp, hsome]
      rfl)]
    by_cases hstamp : p.index = 0 ∧ e.initial_time_value = none
    · exfalso
      rcases h_itv with ⟨h1, h2, h3⟩ | ⟨p₀, hp₀, hidx, h1, h2⟩
      · exact h3 q hq (by rw [hqi, hstamp.1])
      · rw [hstamp.2] at h1
        cases h1
    · rw [initStamp_id e p hstamp]
      exact ⟨h_init, h_ot, h_op, h_tol, h_rate, h_cache, h_ss, h_sc, h_sn, h_sst, h_lp, h_rp,
        h_nd, h_tml, h_itv⟩

end Vibi

namespace Vibi

theorem ingest_inv_fold {S P : Type} [DecidableEq P] (e₀ : Vibi S P) :
    ∀ (l : List (Post P)) (e : Vibi S P) (acc : List (Post P)), IngestInv e₀ e acc →
      IngestInv e₀ (ingest e l) (acc ++ dedupByIndexAux (acc.map Post.index) l) := by
  intro l
  induction l with
  | nil =>
    intro e acc h
    simpa [ingest, dedupByIndexAux] using h
  | cons p ps ih =>
    intro e acc h
    show IngestInv e₀ (ingest (e.watch_handler p) ps) _
    have hstep := Vibi.ingest_inv_step e₀ e acc p h
    by_cases hmem : p.index ∈ acc.map Post.index
    · rw [dedupByIndexAux, if_pos hmem]
      rw [if_neg (show ¬ (∀ q ∈ acc, q.index ≠ p.index) from by
        intro hall
        obtain ⟨q, hq, hqi⟩ := List.mem_map.mp hmem
        exact hall q hq hqi)] at hstep
      exact ih (e.watch_handler p) acc hstep
    · rw [dedupByIndexAux, if_neg hmem]
      rw [if_pos (show ∀ q ∈ acc, q.index ≠ p.index from by
        intro q hq hc
        exact hmem (List.mem_map.mpr ⟨q, hq, hc⟩))] at hstep
      have hres := ih (e.watch_handler p) (acc ++ [p]) hstep
      have hseen : dedupByIndexAux ((acc ++ [p]).map Post.index) ps =
          dedupByIndexAux (p.index :: acc.map Post.index) ps := by
        refine dedupA_congr ps _ _ ?_
        intro i
        simp [or_comm]
      rw [hseen, List.append_assoc] at hres
      exact hres

theorem ingest_inv_base {S P : Type} [DecidableEq P] (room : String) (i : S) (ot : S → S)
    (op : P → S → S) (sm : S → S → S) (tr tol : ℤ) (cache : Bool) (stride count : ℚ)
    (ast : ℤ) (pg : Option ℚ) :
    IngestInv (mkVibi room i ot op sm tr tol cache stride count ast pg)
      (mkVibi room i ot op sm tr tol cache stride count ast pg) [] := by
  refine ⟨rfl, rfl, rfl, rfl, rfl, rfl, rfl, rfl, rfl, rfl, rfl, rfl, List.Pairwise.nil, ?_,
    Or.inl ⟨rfl, rfl, by simp⟩⟩
  intro t
  simp [mkVibi, mapGet]

/-- After ingesting any arrival sequence `l` into a fresh engine, the
engine satisfies the ingestion invariant with accepted posts
`dedupByIndex l` (first delivery of each index wins). -/
theorem ingest_inv {S P : Type} [DecidableEq P] (room : String) (i : S) (ot : S → S)
    (op : P → S → S) (sm : S → S → S) (tr tol : ℤ) (cache : Bool) (stride count : ℚ)
    (ast : ℤ) (pg : Option ℚ) (l : List (Post P)) :
    IngestInv (mkVibi room i ot op sm tr tol cache stride count ast pg)
      (ingest (mkVibi room i ot op sm tr tol cache stride count ast pg) l)
      (dedupByIndex l) := by
  have h := ingest_inv_fold (mkVibi room i ot op sm tr tol cache stride count ast pg) l
    (mkVibi room i ot op sm tr tol cache stride count ast pg) []
    (ingest_inv_base room i ot op sm tr tol cache stride count ast pg)
  simpa [dedupByIndex] using h

end Vibi

namespace Vibi

variable {S P : Type}

/-- Two duplicate-free ingestion sets with the same members produce the
same sorted per-tick post list. -/
theorem dedup_filter_canon [DecidableEq P] (l₁ l₂ : List (Post P))
    (hU : UniqIdx (l₁ ++ l₂)) (h12 : ∀ p ∈ l₁, p ∈ l₂) (h21 : ∀ p ∈ l₂, p ∈ l₁)
    (f : Post P → Bool) :
    sortByIndex ((dedupByIndex l₁).filter f) = sortByIndex ((dedupByIndex l₂).filter f) ∧
    ((dedupByIndex l₁).filter f = [] ↔ (dedupByIndex l₂).filter f = []) := by
  have hU₁ : UniqIdx l₁ := fun p hp q hq =>
    hU p (List.mem_append_left l₂ hp) q (List.mem_append_left l₂ hq)
  have hU₂ : UniqIdx l₂ := fun p hp q hq =>
    hU p (List.mem_append_right l₁ hp) q (List.mem_append_right l₁ hq)
  have hmem : ∀ p, p ∈ (dedupByIndex l₁).filter f ↔ p ∈ (dedupByIndex l₂).filter f := by
    intro p
    rw [List.mem_filter, List.mem_filter, mem_dedup_iff l₁ hU₁ p, mem_dedup_iff l₂ hU₂ p]
    constructor
    · rintro ⟨h, hf⟩
      exact ⟨h12 p h, hf⟩
    · rintro ⟨h, hf⟩
      exact ⟨h21 p h, hf⟩
  have hnd₁ : List.Pairwise (fun a b : Post P => a.index ≠ b.index)
      ((dedupByIndex l₁).filter f) :=
    List.Pairwise.sublist (List.filter_sublist _) (dedupA_pairwise l₁ [])
  have hnd₂ : List.Pairwise (fun a b : Post P => a.index ≠ b.index)
      ((dedupByIndex l₂).filter f) :=
    List.Pairwise.sublist (List.filter_sublist _) (dedupA_pairwise l₂ [])
  have hperm : ((dedupByIndex l₁).filter f).Perm ((dedupByIndex l₂).filter f) :=
    (List.perm_ext_iff_of_nodup (hnd₁.imp fun h he => h (by rw [he]))
      (hnd₂.imp fun h he => h (by rw [he]))).mpr hmem
  refine ⟨sortByIndex_eq_of_perm hperm (pairwise_idx_inj hnd₁), ?_, ?_⟩
  · intro h
    rw [h] at hperm
    exact hperm.symm.eq_nil
  · intro h
    rw [h] at hperm
    exact hperm.eq_nil

/-- On an ingested engine, applying one tick is: `on_tick`, then the
accepted posts of that tick in ascending index order (and no local
posts). -/
theorem applyTick_ingest [DecidableEq P] (e₀ E : Vibi S P) (acc : List (Post P)) (s : S) (t : ℤ)
    (hinv : IngestInv e₀ E acc) :
    E.applyTick s t = List.foldl (fun st q => E.on_post q.data st) (E.on_tick s)
      (sortByIndex (acc.filter (fun q => decide (e₀.official_tick q = t)))) := by
  unfold applyTick
  rw [hinv.tml_get t]
  by_cases hemp : acc.filter (fun q => decide (e₀.official_tick q = t)) = []
  · rw [if_pos hemp, hemp]
    rfl
  · rw [if_neg hemp]
    rfl

end Vibi

namespace Vibi

variable {S P : Type}

/-- `add_local_post` on an engine with no post of that name and no
snapshot window yet: the post is stored and appended to the end of its
tick's bucket's local list (insertion order). -/
theorem add_local_post_ingest [DecidableEq P] (e : Vibi S P) (nm : String) (q : Post P)
    (hlp : mapGet e.local_posts nm = none) (hsst : e.snapshot_start_tick = none) :
    e.add_local_post nm q = { e with local_posts := mapSet e.local_posts nm q, timeline := mapSet e.timeline (e.official_tick q) { e.getBucketD (e.official_tick q) with loc := (e.getBucketD (e.official_tick q)).loc ++ [q] } } := by
  unfold add_local_post
  rw [hlp]
  rw [if_neg (show ¬ (none.isSome = true) from by simp)]
  dsimp only
  rw [if_neg (show ¬ (e.cache_enabled = true ∧
      ∃ st, e.snapshot_start_tick = some st ∧ e.official_tick q < st) from by
    rintro ⟨-, st, hst, -⟩
    rw [hsst] at hst
    cases hst)]
  exact invalidate_sst_none _ _ hsst

end Vibi

namespace Vibi

variable {S P : Type}

theorem applyTick_of_get_some (e : Vibi S P) (s : S) (t : ℤ) (b : TimelineBucket P)
    (h : mapGet e.timeline t = some b) :
    e.applyTick s t = List.foldl (fun st p => e.on_post p.data st)
      (List.foldl (fun st p => e.on_post p.data st) (e.on_tick s) b.remote) b.loc := by
  unfold applyTick
  rw [h]

/-- Adding two local posts of one tick to an ingested engine and applying
that tick runs `on_tick`, then the accepted remote posts in index order,
then the local posts in insertion order. -/
theorem applyTick_two_locals [DecidableEq P] (e₀ E : Vibi S P) (acc : List (Post P))
    (hinv : IngestInv e₀ E acc) (nm₁ nm₂ : String) (q₁ q₂ : Post P) (s : S) (t : ℤ)
    (hne : nm₁ ≠ nm₂) (hq₁ : e₀.official_tick q₁ = t) (hq₂ : e₀.official_tick q₂ = t) :
    ((E.add_local_post nm₁ q₁).add_local_post nm₂ q₂).applyTick s t =
      E.on_post q₂.data (E.on_post q₁.data
        (List.foldl (fun st q => E.on_post q.data st) (E.on_tick s)
          (sortByIndex (acc.filter (fun q => decide (e₀.official_tick q = t)))))) := by
  have htolE : ∀ q, E.official_tick q = e₀.official_tick q :=
    fun q => official_tick_congr E e₀ q hinv.tol_eq hinv.rate_eq
  have h1 := add_local_post_ingest E nm₁ q₁ (by rw [hinv.lp_nil]; rfl) hinv.sst_none
  have hA_lp : (E.add_local_post nm₁ q₁).local_posts = mapSet E.local_posts nm₁ q₁ := by
    rw [h1]
  have hA_tml : (E.add_local_post nm₁ q₁).timeline = mapSet E.timeline (E.official_tick q₁) { E.getBucketD (E.official_tick q₁) with loc := (E.getBucketD (E.official_tick q₁)).loc ++ [q₁] } := by
    rw [h1]
  have hA_ot : (E.add_local_post nm₁ q₁).on_tick = E.on_tick := by rw [h1]
  have hA_op : (E.add_local_post nm₁ q₁).on_post = E.on_post := by rw [h1]
  have hA_tol : (E.add_local_post nm₁ q₁).tolerance = E.tolerance := by rw [h1]
  have hA_rate : (E.add_local_post nm₁ q₁).tick_rate = E.tick_rate := by rw [h1]
  have hA_sst : (E.add_local_post nm₁ q₁).snapshot_start_tick = none := by
    rw [h1]
    exact hinv.sst_none
  have hA_tick : ∀ q, (E.add_local_post nm₁ q₁).official_tick q = E.official_tick q :=
    fun q => official_tick_congr _ E q hA_tol hA_rate
  have h2 := add_local_post_ingest (E.add_local_post nm₁ q₁) nm₂ q₂
    (by rw [hA_lp, hinv.lp_nil]; simp [mapGet, mapSet, hne]) hA_sst
  have hB_tml : ((E.add_local_post nm₁ q₁).add_local_post nm₂ q₂).timeline = mapSet (E.add_local_post nm₁ q₁).timeline ((E.add_local_post nm₁ q₁).official_tick q₂) { (E.add_local_post nm₁ q₁).getBucketD ((E.add_local_post nm₁ q₁).official_tick q₂) with loc := ((E.add_local_post nm₁ q₁).getBucketD ((E.add_local_post nm₁ q₁).official_tick q₂)).loc ++ [q₂] } := by
    rw [h2]
  have hB_ot : ((E.add_local_post nm₁ q₁).add_local_post nm₂ q₂).on_tick = E.on_tick := by
    rw [h2]
    exact hA_ot
  have hB_op : ((E.add_local_post nm₁ q₁).add_local_post nm₂ q₂).on_post = E.on_post := by
    rw [h2]
    exact hA_op
  have hT₁ : E.official_tick q₁ = t := (htolE q₁).trans hq₁
  have hT₂ : (E.add_local_post nm₁ q₁).official_tick q₂ = t := (hA_tick q₂).trans
    ((htolE q₂).trans hq₂)
  have hbkt : E.getBucketD t =
      ⟨sortByIndex (acc.filter (fun q => decide (e₀.official_tick q = t))), []⟩ := by
    show (mapGet E.timeline t).getD ⟨[], []⟩ = _
    rw [hinv.tml_get t]
    by_cases hemp : acc.filter (fun q => decide (e₀.official_tick q = t)) = []
    · rw [if_pos hemp, hemp]
      rfl
    · rw [if_neg hemp]
      rfl
  have hA_bkt : (E.add_local_post nm₁ q₁).getBucketD t =
      ⟨sortByIndex (acc.filter (fun q => decide (e₀.official_tick q = t))), [q₁]⟩ := by
    show (mapGet (E.add_local_post nm₁ q₁).timeline t).getD ⟨[], []⟩ = _
    rw [hA_tml, hT₁, mapGet_mapSet_self, hbkt]
    rfl
  refine (applyTick_of_get_some _ s t
    ⟨sortByIndex (acc.filter (fun q => decide (e₀.official_tick q = t))), [q₁, q₂]⟩ ?_).trans ?_
  · rw [hB_tml, hT₂, mapGet_mapSet_self, hA_bkt]
    rfl
  · rw [hB_ot, hB_op]
    rfl

end Vibi

/-- C3: on an engine that has ingested an arrival sequence `l₁`, applying
tick `t` to a state `s` computes exactly `on_tick s`, then folds `on_post`
over the accepted remote posts of tick `t` in ascending index order, then
over the local posts of tick `t` in insertion order (shown for two local
posts added through `add_local_post`; an ingested engine itself holds no
local posts).  The result is independent of the arrival order: any two
arrival sequences with the same posts (duplicates allowed, indices
authoritative) give the same tick application. -/
theorem claim_C3_tick_order {S P : Type} [DecidableEq P] (room : String) (i : S)
    (ot : S → S) (op : P → S → S) (sm : S → S → S) (tr tol : ℤ) (cache : Bool)
    (stride count : ℚ) (ast : ℤ) (pg : Option ℚ) (l₁ l₂ : List (Post P)) (s : S) (t : ℤ)
    (hU : UniqIdx (l₁ ++ l₂)) (h12 : ∀ p ∈ l₁, p ∈ l₂) (h21 : ∀ p ∈ l₂, p ∈ l₁) :
    (ingest (mkVibi room i ot op sm tr tol cache stride count ast pg) l₁).applyTick s t =
      List.foldl (fun st q => op q.data st) (ot s)
        (Vibi.sortByIndex ((dedupByIndex l₁).filter (fun q => decide ((mkVibi room i ot op sm tr tol cache stride count ast pg : Vibi S P).official_tick q = t)))) ∧
    (∀ (nm₁ nm₂ : String) (q₁ q₂ : Post P), nm₁ ≠ nm₂ →
      (mkVibi room i ot op sm tr tol cache stride count ast pg : Vibi S P).official_tick q₁ = t →
      (mkVibi room i ot op sm tr tol cache stride count ast pg : Vibi S P).official_tick q₂ = t →
      (((ingest (mkVibi room i ot op sm tr tol cache stride count ast pg) l₁).add_local_post nm₁ q₁).add_local_post nm₂ q₂).applyTick s t =
        op q₂.data (op q₁.data (List.foldl (fun st q => op q.data st) (ot s)
          (Vibi.sortByIndex ((dedupByIndex l₁).filter (fun q => decide ((mkVibi room i ot op sm tr tol cache stride count ast pg : Vibi S P).official_tick q = t))))))) ∧
    (ingest (mkVibi room i ot op sm tr tol cache stride count ast pg) l₁).applyTick s t =
      (ingest (mkVibi room i ot op sm tr tol cache stride count ast pg) l₂).applyTick s t := by
  have hinv₁ := Vibi.ingest_inv room i ot op sm tr tol cache stride count ast pg l₁
  have hinv₂ := Vibi.ingest_inv room i ot op sm tr tol cache stride count ast pg l₂
  have hcanon := Vibi.dedup_filter_canon l₁ l₂ hU h12 h21
    (fun q => decide ((mkVibi room i ot op sm tr tol cache stride count ast pg : Vibi S P).official_tick q = t))
  have h₁ := Vibi.applyTick_ingest _ _ _ s t hinv₁
  have h₂ := Vibi.applyTick_ingest _ _ _ s t hinv₂
  rw [hinv₁.on_post_eq, hinv₁.on_tick_eq] at h₁
  rw [hinv₂.on_post_eq, hinv₂.on_tick_eq] at h₂
  refine ⟨h₁, ?_, ?_⟩
  · intro nm₁ nm₂ q₁ q₂ hne hq₁ hq₂
    have h3 := Vibi.applyTick_two_locals _ _ _ hinv₁ nm₁ nm₂ q₁ q₂ s t hne hq₁ hq₂
    rw [hinv₁.on_post_eq, hinv₁.on_tick_eq] at h3
    exact h3
  · rw [h₁, h₂, hcanon.1]

/-- Witness for C3: two concrete arrival orders (the second with a
duplicate delivery of `pB`) of the same two posts yield the same tick-0
application on the counting engine. -/
theorem claim_C3_witness :
    UniqIdx ([pA, pB] ++ [pB, pA, pB]) ∧
    (ingest (mkVibi "r" (0:ℤ) (fun s => s + 1) (fun (p : ℤ) s => s + p) (fun r _ => r) 24 300 true 8 256 5000 none) [pA, pB]).applyTick 0 0 =
      (ingest (mkVibi "r" (0:ℤ) (fun s => s + 1) (fun (p : ℤ) s => s + p) (fun r _ => r) 24 300 true 8 256 5000 none) [pB, pA, pB]).applyTick 0 0 :=
  ⟨by unfold UniqIdx; decide,
    (claim_C3_tick_order "r" 0 (fun s => s + 1) (fun p s => s + p) (fun r _ => r) 24 300 true
      8 256 5000 none [pA, pB] [pB, pA, pB] 0 0 (by unfold UniqIdx; decide) (by decide)
      (by decide)).2.2⟩

namespace Vibi

variable {S P : Type}

/-- With the cache disabled, `compute_state_at` only depends on `init`,
the handlers, the clock configuration, the memoized initial time/tick,
the index-0 post and the timeline contents. -/
theorem compute_state_at_nocache_congr (E₁ E₂ : Vibi S P) (at_tick : ℤ)
    (hc₁ : E₁.cache_enabled = false) (hc₂ : E₂.cache_enabled = false)
    (hinit : E₁.init = E₂.init) (hot : E₁.on_tick = E₂.on_tick) (hop : E₁.on_post = E₂.on_post)
    (htol : E₁.tolerance = E₂.tolerance) (hrate : E₁.tick_rate = E₂.tick_rate)
    (hitv : E₁.initial_time_value = E₂.initial_time_value)
    (hivt : E₁.initial_tick_value = E₂.initial_tick_value)
    (hrp0 : mapGet E₁.remote_posts 0 = mapGet E₂.remote_posts 0)
    (html : ∀ τ, mapGet E₁.timeline τ = mapGet E₂.timeline τ) :
    (E₁.compute_state_at at_tick).1 = (E₂.compute_state_at at_tick).1 := by
  obtain ⟨rm₁, ini₁, ot₁, op₁, sm₁, tr₁, tol₁, rp₁, lp₁, tml₁, ce₁, ss₁, sc₁, sn₁, sst₁, itv₁,
    ivt₁, ast₁, pg₁⟩ := E₁
  obtain ⟨rm₂, ini₂, ot₂, op₂, sm₂, tr₂, tol₂, rp₂, lp₂, tml₂, ce₂, ss₂, sc₂, sn₂, sst₂, itv₂,
    ivt₂, ast₂, pg₂⟩ := E₂
  dsimp only at hc₁ hc₂ hinit hot hop htol hrate hitv hivt hrp0 html ⊢
  subst hc₁
  subst hc₂
  subst hinit
  subst hot
  subst hop
  subst htol
  subst hrate
  subst hitv
  subst hivt
  rcases ivt₁ with _ | tk
  · rcases itv₁ with _ | t₀
    · rcases hrp₁ : mapGet rp₁ 0 with _ | post
      · have hrp₂ : mapGet rp₂ 0 = none := by rw [← hrp0]; exact hrp₁
        simp [compute_state_at, initial_tick, initial_time, hrp₁, hrp₂]
      · have hrp₂ : mapGet rp₂ 0 = some post := by rw [← hrp0]; exact hrp₁
        simp only [compute_state_at, initial_tick, initial_time, hrp₁, hrp₂, time_to_tick,
          official_time]
        set tk : ℤ := Int.fdiv
          ((if post.client_time ≤ post.server_time - tol₁ then post.server_time - tol₁
            else post.client_time) * tr₁) 1000 with htk
        by_cases hlt : at_tick < tk
        · rw [if_pos hlt, if_pos hlt]
        · rw [if_neg hlt, if_neg hlt]
          simp only [Bool.true_eq_false, if_false, eq_self_iff_true, if_true]
          exact compute_state_at_uncached_congr _ _ _ at_tick rfl rfl rfl html
    · simp only [compute_state_at, initial_tick, initial_time, time_to_tick]
      set tk : ℤ := Int.fdiv (t₀ * tr₁) 1000 with htk
      by_cases hlt : at_tick < tk
      · rw [if_pos hlt, if_pos hlt]
      · rw [if_neg hlt, if_neg hlt]
        simp only [Bool.true_eq_false, if_false, eq_self_iff_true, if_true]
        exact compute_state_at_uncached_congr _ _ _ at_tick rfl rfl rfl html
  · simp only [compute_state_at, initial_tick]
    by_cases hlt : at_tick < tk
    · rw [if_pos hlt, if_pos hlt]
    · rw [if_neg hlt, if_neg hlt]
      simp only [Bool.true_eq_false, if_false, eq_self_iff_true, if_true]
      exact compute_state_at_uncached_congr _ _ _ at_tick rfl rfl rfl html

end Vibi

namespace Vibi

variable {S P : Type}

/-- `compute_state_at` agreement for two engines with empty snapshot
stores: equal configuration, memoized clock, index-0 post and timeline
contents give equal states, with any cache setting (shared by the two). -/
theorem compute_state_at_fst_congr (E₁ E₂ : Vibi S P) (at_tick : ℤ)
    (hcache : E₁.cache_enabled = E₂.cache_enabled)
    (hs₁ : 1 ≤ E₁.snapshot_stride) (hcnt₁ : 1 ≤ E₁.snapshot_count)
    (hsn₁ : E₁.snapshots = []) (hsst₁ : E₁.snapshot_start_tick = none)
    (hs₂ : 1 ≤ E₂.snapshot_stride) (hcnt₂ : 1 ≤ E₂.snapshot_count)
    (hsn₂ : E₂.snapshots = []) (hsst₂ : E₂.snapshot_start_tick = none)
    (hinit : E₁.init = E₂.init) (hot : E₁.on_tick = E₂.on_tick) (hop : E₁.on_post = E₂.on_post)
    (htol : E₁.tolerance = E₂.tolerance) (hrate : E₁.tick_rate = E₂.tick_rate)
    (hitv : E₁.initial_time_value = E₂.initial_time_value)
    (hivt : E₁.initial_tick_value = E₂.initial_tick_value)
    (hrp0 : mapGet E₁.remote_posts 0 = mapGet E₂.remote_posts 0)
    (html : ∀ τ, mapGet E₁.timeline τ = mapGet E₂.timeline τ) :
    (E₁.compute_state_at at_tick).1 = (E₂.compute_state_at at_tick).1 := by
  rcases hcb : E₁.cache_enabled with _ | _
  · exact compute_state_at_nocache_congr E₁ E₂ at_tick hcb (by rw [← hcache]; exact hcb)
      hinit hot hop htol hrate hitv hivt hrp0 html
  · rw [compute_state_at_cache_eq E₁ at_tick hcb hs₁ hcnt₁ hsn₁ hsst₁,
      compute_state_at_cache_eq E₂ at_tick (by rw [← hcache]; exact hcb) hs₂ hcnt₂ hsn₂ hsst₂]
    exact compute_state_at_nocache_congr _ _ at_tick rfl rfl hinit hot hop htol hrate hitv hivt
      hrp0 html

end Vibi

/-- C2: two engines with the same configuration that have each ingested
the same set of posts through the watch handler — in any arrival order,
possibly with duplicate deliveries — return the same state from
`compute_state_at t`, for every tick `t` (in particular for every
`t ≥ initial_tick`). -/
theorem claim_C2_order_independence {S P : Type} [DecidableEq P] (room : String) (i : S)
    (ot : S → S) (op : P → S → S) (sm : S → S → S) (tr tol : ℤ) (cache : Bool)
    (stride count : ℚ) (ast : ℤ) (pg : Option ℚ) (l₁ l₂ : List (Post P)) (t : ℤ)
    (hU : UniqIdx (l₁ ++ l₂)) (h12 : ∀ p ∈ l₁, p ∈ l₂) (h21 : ∀ p ∈ l₂, p ∈ l₁) :
    ((ingest (mkVibi room i ot op sm tr tol cache stride count ast pg) l₁).compute_state_at t).1 =
      ((ingest (mkVibi room i ot op sm tr tol cache stride count ast pg) l₂).compute_state_at t).1 := by
  have hinv₁ := Vibi.ingest_inv room i ot op sm tr tol cache stride count ast pg l₁
  have hinv₂ := Vibi.ingest_inv room i ot op sm tr tol cache stride count ast pg l₂
  have hU₁ : UniqIdx l₁ := fun p hp q hq =>
    hU p (List.mem_append_left l₂ hp) q (List.mem_append_left l₂ hq)
  have hU₂ : UniqIdx l₂ := fun p hp q hq =>
    hU p (List.mem_append_right l₁ hp) q (List.mem_append_right l₁ hq)
  have hitv : (ingest (mkVibi room i ot op sm tr tol cache stride count ast pg) l₁).initial_time_value =
        (ingest (mkVibi room i ot op sm tr tol cache stride count ast pg) l₂).initial_time_value ∧
      (ingest (mkVibi room i ot op sm tr tol cache stride count ast pg) l₁).initial_tick_value =
        (ingest (mkVibi room i ot op sm tr tol cache stride count ast pg) l₂).initial_tick_value := by
    rcases hinv₁.itv_spec with ⟨ha1, ha2, ha3⟩ | ⟨p₀, hp₀, hidx, ha1, ha2⟩ <;>
      rcases hinv₂.itv_spec with ⟨hb1, hb2, hb3⟩ | ⟨q₀, hq₀, hqidx, hb1, hb2⟩
    · exact ⟨ha1.trans hb1.symm, ha2.trans hb2.symm⟩
    · exfalso
      exact ha3 q₀ ((mem_dedup_iff l₁ hU₁ q₀).mpr (h21 q₀ ((mem_dedup_iff l₂ hU₂ q₀).mp hq₀)))
        hqidx
    · exfalso
      exact hb3 p₀ ((mem_dedup_iff l₂ hU₂ p₀).mpr (h12 p₀ ((mem_dedup_iff l₁ hU₁ p₀).mp hp₀)))
        hidx
    · have hpq : p₀ = q₀ := hU p₀ (List.mem_append_left l₂ ((mem_dedup_iff l₁ hU₁ p₀).mp hp₀))
        q₀ (List.mem_append_right l₁ ((mem_dedup_iff l₂ hU₂ q₀).mp hq₀)) (by rw [hidx, hqidx])
      subst hpq
      exact ⟨ha1.trans hb1.symm, ha2.trans hb2.symm⟩
  have hrp0 : mapGet (ingest (mkVibi room i ot op sm tr tol cache stride count ast pg) l₁).remote_posts 0 =
      mapGet (ingest (mkVibi room i ot op sm tr tol cache stride count ast pg) l₂).remote_posts 0 := by
    rw [hinv₁.rp_eq, hinv₂.rp_eq]
    by_cases hex : ∃ p₀ ∈ dedupByIndex l₁, p₀.index = 0
    · obtain ⟨p₀, hp₀, hidx⟩ := hex
      have h1 : mapGet ((dedupByIndex l₁).map (fun q => (q.index, q))) 0 = some p₀ := by
        rw [← hidx]
        exact Vibi.mapGet_idx_some _ p₀ hp₀ (dedupA_pairwise l₁ [])
      have hp₀' : p₀ ∈ dedupByIndex l₂ :=
        (mem_dedup_iff l₂ hU₂ p₀).mpr (h12 p₀ ((mem_dedup_iff l₁ hU₁ p₀).mp hp₀))
      have h2 : mapGet ((dedupByIndex l₂).map (fun q => (q.index, q))) 0 = some p₀ := by
        rw [← hidx]
        exact Vibi.mapGet_idx_some _ p₀ hp₀' (dedupA_pairwise l₂ [])
      rw [h1, h2]
    · push_neg at hex
      rw [Vibi.mapGet_idx_none _ _ hex, Vibi.mapGet_idx_none _ _ (fun q hq =>
        hex q ((mem_dedup_iff l₁ hU₁ q).mpr (h21 q ((mem_dedup_iff l₂ hU₂ q).mp hq))))]
  have html : ∀ τ, mapGet (ingest (mkVibi room i ot op sm tr tol cache stride count ast pg) l₁).timeline τ =
      mapGet (ingest (mkVibi room i ot op sm tr tol cache stride count ast pg) l₂).timeline τ := by
    intro τ
    rw [hinv₁.tml_get τ, hinv₂.tml_get τ]
    have hcanon := Vibi.dedup_filter_canon l₁ l₂ hU h12 h21
      (fun q => decide ((mkVibi room i ot op sm tr tol cache stride count ast pg : Vibi S P).official_tick q = τ))
    by_cases hA : (dedupByIndex l₁).filter
        (fun q => decide ((mkVibi room i ot op sm tr tol cache stride count ast pg : Vibi S P).official_tick q = τ)) = []
    · rw [if_pos hA, if_pos (hcanon.2.mp hA)]
    · rw [if_neg hA, if_neg (fun hB => hA (hcanon.2.mpr hB)), hcanon.1]
  exact Vibi.compute_state_at_fst_congr _ _ t (hinv₁.cache_eq.trans hinv₂.cache_eq.symm)
    (by rw [hinv₁.stride_eq]; exact le_max_left _ _)
    (by rw [hinv₁.count_eq]; exact le_max_left _ _)
    hinv₁.snaps_nil hinv₁.sst_none
    (by rw [hinv₂.stride_eq]; exact le_max_left _ _)
    (by rw [hinv₂.count_eq]; exact le_max_left _ _)
    hinv₂.snaps_nil hinv₂.sst_none
    (hinv₁.init_eq.trans hinv₂.init_eq.symm)
    (hinv₁.on_tick_eq.trans hinv₂.on_tick_eq.symm)
    (hinv₁.on_post_eq.trans hinv₂.on_post_eq.symm)
    (hinv₁.tol_eq.trans hinv₂.tol_eq.symm)
    (hinv₁.rate_eq.trans hinv₂.rate_eq.symm)
    hitv.1 hitv.2 hrp0 html

/-- Witness for C2: the two concrete arrival orders of the same post set
give the same state at tick 3 on the counting engine (cache enabled). -/
theorem claim_C2_witness :
    UniqIdx ([pA, pB] ++ [pB, pA, pB]) ∧
    ((ingest (mkVibi "r" (0:ℤ) (fun s => s + 1) (fun (p : ℤ) s => s + p) (fun r _ => r) 24 300 true 8 256 5000 none) [pA, pB]).compute_state_at 3).1 =
      ((ingest (mkVibi "r" (0:ℤ) (fun s => s + 1) (fun (p : ℤ) s => s + p) (fun r _ => r) 24 300 true 8 256 5000 none) [pB, pA, pB]).compute_state_at 3).1 :=
  ⟨by unfold UniqIdx; decide,
    claim_C2_order_independence "r" 0 (fun s => s + 1) (fun p s => s + p) (fun r _ => r) 24 300
      true 8 256 5000 none [pA, pB] [pB, pA, pB] 3 (by unfold UniqIdx; decide) (by decide)
      (by decide)⟩

/-! ### The snapshot-window invariant (C7) -/

section MapMemLemmas

variable {κ α : Type} [DecidableEq κ]

theorem mem_mapSet {m : List (κ × α)} {k : κ} {v : α} {pr : κ × α}
    (h : pr ∈ mapSet m k v) : pr ∈ m ∨ pr = (k, v) := by
  induction m with
  | nil =>
    rw [mapSet] at h
    rcases List.mem_singleton.mp h with rfl
    exact Or.inr rfl
  | cons hd tl ih =>
    rw [mapSet] at h
    split at h
    · rcases List.mem_cons.mp h with rfl | h'
      · exact Or.inr rfl
      · exact Or.inl (List.mem_cons_of_mem hd h')
    · rcases List.mem_cons.mp h with rfl | h'
      · exact Or.inl (List.mem_cons_self _ _)
      · rcases ih h' with h'' | h''
        · exact Or.inl (List.mem_cons_of_mem hd h'')
        · exact Or.inr h''

theorem mem_mapDelete {m : List (κ × α)} {k : κ} {pr : κ × α}
    (h : pr ∈ mapDelete m k) : pr ∈ m := by
  induction m with
  | nil => exact h
  | cons hd tl ih =>
    rw [mapDelete] at h
    split at h
    · exact List.mem_cons_of_mem hd h
    · rcases List.mem_cons.mp h with rfl | h'
      · exact List.mem_cons_self _ _
      · exact List.mem_cons_of_mem hd (ih h')

end MapMemLemmas

namespace Vibi

variable {S P : Type}

/-- `WFWindow` unfolded into implication form. -/
theorem WFWindow_iff (e : Vibi S P) : WFWindow e ↔
    (e.snapshot_start_tick = none → e.snapshots = []) ∧
    (∀ st, e.snapshot_start_tick = some st →
      (∃ vals : List S, e.snapshots = progZip st e.snapshot_stride vals) ∧
      (∀ pr ∈ e.remote_posts, st ≤ e.official_tick pr.2) ∧
      (∀ pr ∈ e.local_posts, st ≤ e.official_tick pr.2)) := by
  unfold WFWindow
  rcases hsst : e.snapshot_start_tick with _ | st <;> simp [hsst]

/-- A filter of a well-formed snapshot store keeping only the ticks
below a bound is a (shorter) well-formed store with the same start. -/
theorem filter_progZip_ex {α : Type} {s : ℤ} (hs : 1 ≤ s) (b tick : ℤ) (vals : List α) :
    ∃ vals' : List α, (progZip b s vals).filter (fun pr => decide (pr.1 < tick)) =
      progZip b s vals' ∧ vals'.length ≤ vals.length := by
  rcases lt_or_le b tick with hb | hb
  · refine ⟨vals.take (numBelow b s tick), progZip_filter_lt hs vals b tick hb, ?_⟩
    rw [List.length_take]
    exact min_le_right _ _
  · refine ⟨[], ?_, by simp⟩
    refine List.filter_eq_nil_iff.mpr ?_
    intro pr hpr
    have := mem_progZip_lb (by omega) vals b pr hpr
    simp only [decide_eq_true_eq]
    omega

theorem cache_true_of_ne_false (e : Vibi S P) (h : ¬ e.cache_enabled = false) :
    e.cache_enabled = true := by
  revert h
  cases e.cache_enabled <;> simp

/-- `invalidate_from_tick` preserves the engine invariant. -/
theorem invalidate_inv (e : Vibi S P) (t : ℤ) (hinv : EngineInv e) :
    EngineInv (e.invalidate_from_tick t) := by
  by_cases hcf : e.cache_enabled = false
  · rw [show e.invalidate_from_tick t = e from by unfold invalidate_from_tick; rw [if_pos hcf]]
    exact hinv
  · rcases hsst : e.snapshot_start_tick with _ | st
    · rw [invalidate_sst_none e t hsst]
      exact hinv
    · obtain ⟨hs, hc, hlen, hcn, hwf⟩ := hinv
      have hcache := cache_true_of_ne_false e hcf
      obtain ⟨hvals, hrp, hlp⟩ := ((WFWindow_iff e).mp hwf).2 st hsst
      obtain ⟨vals, hsnap⟩ := hvals
      rw [invalidate_from_tick_spec e st t vals hcache hsst hsnap hs]
      split_ifs with h1
      · exact ⟨hs, hc, hlen, hcn, hwf⟩
      · obtain ⟨vals', hfil, hlen'⟩ := filter_progZip_ex hs st t vals
        rw [hsnap, hfil]
        refine ⟨hs, hc, ?_, hcn, ?_⟩
        · rw [progZip_length]
          rw [hsnap, progZip_length] at hlen
          show (vals'.length : ℤ) ≤ e.snapshot_count
          omega
        · rw [WFWindow_iff]
          refine ⟨?_, ?_⟩
          · intro hn
            rw [hsst] at hn
            cases hn
          · intro st' hst'
            rw [hsst] at hst'
            obtain rfl := Option.some.inj hst'
            exact ⟨⟨vals', rfl⟩, hrp, hlp⟩

end Vibi

namespace Vibi

variable {S P : Type}

/-- `EngineInv` transports along equality of the fields it mentions. -/
theorem EngineInv_congr (e₁ e₂ : Vibi S P) (hss : e₂.snapshot_stride = e₁.snapshot_stride)
    (hsc : e₂.snapshot_count = e₁.snapshot_count) (hsn : e₂.snapshots = e₁.snapshots)
    (hce : e₂.cache_enabled = e₁.cache_enabled)
    (hsst : e₂.snapshot_start_tick = e₁.snapshot_start_tick)
    (hrp : e₂.remote_posts = e₁.remote_posts) (hlp : e₂.local_posts = e₁.local_posts)
    (htol : e₂.tolerance = e₁.tolerance) (hrate : e₂.tick_rate = e₁.tick_rate)
    (h : EngineInv e₁) : EngineInv e₂ := by
  obtain ⟨hs, hc, hlen, hcn, hwf⟩ := h
  obtain ⟨hw1, hw2⟩ := (WFWindow_iff e₁).mp hwf
  refine ⟨by rw [hss]; exact hs, by rw [hsc]; exact hc, by rw [hsn, hsc]; exact hlen,
    fun hf => by rw [hsst]; exact hcn (by rw [← hce]; exact hf), ?_⟩
  rw [WFWindow_iff]
  refine ⟨?_, ?_⟩
  · intro hn
    rw [hsn]
    exact hw1 (by rw [← hsst]; exact hn)
  · intro st hst
    obtain ⟨hv, hr, hl⟩ := hw2 st (by rw [← hsst]; exact hst)
    refine ⟨?_, ?_, ?_⟩
    · rw [hsn, hss]
      exact hv
    · intro pr hpr
      rw [official_tick_congr e₂ e₁ pr.2 htol hrate]
      exact hr pr (by rw [← hrp]; exact hpr)
    · intro pr hpr
      rw [official_tick_congr e₂ e₁ pr.2 htol hrate]
      exact hl pr (by rw [← hlp]; exact hpr)

/-- After `prune_before_tick pt` on a cache-enabled engine whose window
starts at `pt`, the invariant holds: every retained post is at or after
`pt`. -/
theorem prune_inv_establish (e : Vibi S P) (pt : ℤ) (hcache : e.cache_enabled = true)
    (hs : 1 ≤ e.snapshot_stride) (hc : 1 ≤ e.snapshot_count)
    (hlen : (e.snapshots.length : ℤ) ≤ e.snapshot_count)
    (hsst : e.snapshot_start_tick = some pt)
    (hvals : ∃ vals : List S, e.snapshots = progZip pt e.snapshot_stride vals) :
    EngineInv (e.prune_before_tick pt) := by
  unfold prune_before_tick
  rw [if_neg (show ¬ (e.cache_enabled = false) from by rw [hcache]; simp)]
  refine ⟨hs, hc, ?_, ?_, ?_⟩
  · show (e.snapshots.length : ℤ) ≤ e.snapshot_count
    exact hlen
  · intro hf
    have hf' : e.cache_enabled = false := hf
    rw [hcache] at hf'
    simp at hf'
  · rw [WFWindow_iff]
    refine ⟨?_, ?_⟩
    · intro hn
      have hn' : e.snapshot_start_tick = none := hn
      rw [hsst] at hn'
      cases hn'
    · intro st' hst'
      have hst'' : e.snapshot_start_tick = some st' := hst'
      rw [hsst] at hst''
      obtain rfl := Option.some.inj hst''
      refine ⟨hvals, ?_, ?_⟩
      · intro pr hpr
        have hpr' : pr ∈ e.remote_posts.filter
            (fun pr => !decide (e.official_tick pr.2 < pt)) := hpr
        obtain ⟨hmem, hdec⟩ := List.mem_filter.mp hpr'
        have hnlt : ¬ (e.official_tick pr.2 < pt) := by simpa using hdec
        show pt ≤ e.official_tick pr.2
        omega
      · intro pr hpr
        have hpr' : pr ∈ e.local_posts.filter
            (fun pr => !decide (e.official_tick pr.2 < pt)) := hpr
        obtain ⟨hmem, hdec⟩ := List.mem_filter.mp hpr'
        have hnlt : ¬ (e.official_tick pr.2 < pt) := by simpa using hdec
        show pt ≤ e.official_tick pr.2
        omega

/-- When the window start is unset, `ensure_snapshots` first fixes it to
the initial tick. -/
theorem ensure_set_start (e : Vibi S P) (at_tick it : ℤ) (hcache : e.cache_enabled = true)
    (hsst : e.snapshot_start_tick = none) :
    e.ensure_snapshots at_tick it =
      Vibi.ensure_snapshots { e with snapshot_start_tick := some it } at_tick it := by
  unfold ensure_snapshots
  dsimp only
  simp only [hcache, Bool.true_eq_false, if_false]
  rw [if_pos hsst, if_neg (show ¬ (some it = (none : Option ℤ)) from by simp)]

end Vibi

namespace Vibi

variable {S P : Type}

/-- `ensure_snapshots` preserves the invariant on an engine whose window
start is already set. -/
theorem ensure_inv_some (e : Vibi S P) (at_tick it st : ℤ) (vals : List S)
    (hcache : e.cache_enabled = true) (hsst : e.snapshot_start_tick = some st)
    (hsnap : e.snapshots = progZip st e.snapshot_stride vals)
    (hs : 1 ≤ e.snapshot_stride) (hc : 1 ≤ e.snapshot_count)
    (hlen : (e.snapshots.length : ℤ) ≤ e.snapshot_count)
    (hpost : st ≤ at_tick ∨ ((∀ pr ∈ e.remote_posts, st ≤ e.official_tick pr.2) ∧
      (∀ pr ∈ e.local_posts, st ≤ e.official_tick pr.2))) :
    EngineInv (e.ensure_snapshots at_tick it) := by
  rcases le_or_lt st at_tick with hat | hat
  · rw [ensure_snapshots_eq e st at_tick it vals hcache hsst hsnap hs hat]
    dsimp only
    set valsAll := ensureVals e st vals ((at_tick - st) / e.snapshot_stride) with hva
    split_ifs with hov
    · set o : ℤ := (valsAll.length : ℤ) - e.snapshot_count with hoo
      have ho : 0 < o := by omega
      have hol : o ≤ (valsAll.length : ℤ) := by omega
      rw [dropAux_spec hs st o valsAll ho hol]
      apply prune_inv_establish
      · exact hcache
      · exact hs
      · exact hc
      · show ((progZip (st + o * e.snapshot_stride) e.snapshot_stride
            (valsAll.drop o.toNat)).length : ℤ) ≤ e.snapshot_count
        rw [progZip_length, List.length_drop]
        omega
      · rfl
      · exact ⟨valsAll.drop o.toNat, rfl⟩
    · apply prune_inv_establish
      · exact hcache
      · exact hs
      · exact hc
      · show ((progZip st e.snapshot_stride valsAll).length : ℤ) ≤ e.snapshot_count
        rw [progZip_length]
        omega
      · rfl
      · exact ⟨valsAll, rfl⟩
  · have hret : e.ensure_snapshots at_tick it = e := by
      unfold ensure_snapshots
      rw [if_neg (show ¬ (e.cache_enabled = false) from by rw [hcache]; simp)]
      dsimp only
      rw [if_neg (show ¬ (e.snapshot_start_tick = none) from by rw [hsst]; simp)]
      rw [hsst]
      dsimp only
      rw [if_pos hat]
    rw [hret]
    rcases hpost with h | ⟨hrp, hlp⟩
    · exact absurd h (not_le.mpr hat)
    · refine ⟨hs, hc, hlen, fun hf => (by rw [hcache] at hf; simp at hf), ?_⟩
      rw [WFWindow_iff]
      refine ⟨fun hn => (by rw [hsst] at hn; cases hn), ?_⟩
      intro st' hst'
      rw [hsst] at hst'
      obtain rfl := Option.some.inj hst'
      exact ⟨⟨vals, hsnap⟩, hrp, hlp⟩

/-- `ensure_snapshots` preserves the engine invariant whenever the
requested tick is at or after the initial tick used to seed the window
(which is how `compute_state_at` calls it). -/
theorem ensure_inv (e : Vibi S P) (at_tick it : ℤ) (hinv : EngineInv e)
    (hit : e.snapshot_start_tick = none → it ≤ at_tick) :
    EngineInv (e.ensure_snapshots at_tick it) := by
  by_cases hcf : e.cache_enabled = false
  · rw [show e.ensure_snapshots at_tick it = e from by
      unfold ensure_snapshots; rw [if_pos hcf]]
    exact hinv
  · have hcache := cache_true_of_ne_false e hcf
    obtain ⟨hs, hc, hlen, hcn, hwf⟩ := hinv
    rcases hsst : e.snapshot_start_tick with _ | st
    · have hsnaps : e.snapshots = [] := ((WFWindow_iff e).mp hwf).1 hsst
      rw [ensure_set_start e at_tick it hcache hsst]
      refine ensure_inv_some _ at_tick it it [] hcache rfl ?_ hs hc ?_ (Or.inl (hit hsst))
      · show e.snapshots = progZip it e.snapshot_stride []
        rw [hsnaps]
        rfl
      · show (e.snapshots.length : ℤ) ≤ e.snapshot_count
        exact hlen
    · obtain ⟨hvals, hrp, hlp⟩ := ((WFWindow_iff e).mp hwf).2 st hsst
      obtain ⟨vals, hsnap⟩ := hvals
      exact ensure_inv_some e at_tick it st vals hcache hsst hsnap hs hc hlen
        (Or.inr ⟨hrp, hlp⟩)

end Vibi

namespace Vibi

variable {S P : Type}

theorem initStamp_inv (e : Vibi S P) (p : Post P) (h : EngineInv e) :
    EngineInv (e.initStamp p) :=
  EngineInv_congr e _ (initStamp_stride e p) (initStamp_count e p) (initStamp_snaps e p)
    (initStamp_cache e p) (initStamp_sst e p) (initStamp_rp e p) (initStamp_lp e p)
    (initStamp_tol e p) (initStamp_rate e p) h

theorem insert_remote_post_inv (e : Vibi S P) (p : Post P) (t : ℤ) (h : EngineInv e) :
    EngineInv (e.insert_remote_post p t) :=
  EngineInv_congr e _ rfl rfl rfl rfl rfl rfl rfl rfl rfl h

theorem mkVibi_inv (room : String) (i : S) (ot : S → S) (op : P → S → S) (sm : S → S → S)
    (tr tol : ℤ) (cache : Bool) (stride count : ℚ) (ast : ℤ) (pg : Option ℚ) :
    EngineInv (mkVibi room i ot op sm tr tol cache stride count ast pg : Vibi S P) := by
  refine ⟨le_max_left _ _, le_max_left _ _, ?_, fun _ => rfl, ?_⟩
  · show ((([] : List (ℤ × S)).length : ℤ)) ≤ max 1 ⌊count⌋
    simp
  · rw [WFWindow_iff]
    refine ⟨fun _ => rfl, ?_⟩
    intro st hst
    simp [mkVibi] at hst

theorem add_remote_post_inv (e : Vibi S P) (p : Post P) (hinv : EngineInv e) :
    EngineInv (e.add_remote_post p) := by
  rw [add_remote_post_eq]
  dsimp only
  split_ifs with hbw hdup
  · exact initStamp_inv e p hinv
  · exact initStamp_inv e p hinv
  · apply invalidate_inv
    apply insert_remote_post_inv
    obtain ⟨hs, hc, hlen, hcn, hwf⟩ := initStamp_inv e p hinv
    obtain ⟨hw1, hw2⟩ := (WFWindow_iff (e.initStamp p)).mp hwf
    refine ⟨hs, hc, hlen, hcn, ?_⟩
    rw [WFWindow_iff]
    refine ⟨fun hn => hw1 hn, ?_⟩
    intro st hst
    have hst' : (e.initStamp p).snapshot_start_tick = some st := hst
    obtain ⟨hv, hr, hl⟩ := hw2 st hst'
    refine ⟨hv, ?_, hl⟩
    intro pr hpr
    rcases mem_mapSet hpr with hm | heq
    · exact hr pr hm
    · subst heq
      show st ≤ (e.initStamp p).official_tick p
      rw [official_tick_congr (e.initStamp p) e p (initStamp_tol e p) (initStamp_rate e p)]
      by_cases hcf : (e.initStamp p).cache_enabled = false
      · have hnone := hcn hcf
        rw [hnone] at hst'
        cases hst'
      · have hcache := cache_true_of_ne_false _ hcf
        have hnlt : ¬ (e.official_tick p < st) := fun hlt => hbw ⟨hcache, st, hst', hlt⟩
        omega

theorem EngineInv_lp_tml (e : Vibi S P) (lp' : List (String × Post P))
    (tml' : List (ℤ × TimelineBucket P)) (hsub : ∀ pr ∈ lp', pr ∈ e.local_posts)
    (hinv : EngineInv e) : EngineInv { e with local_posts := lp', timeline := tml' } := by
  obtain ⟨hs, hc, hlen, hcn, hwf⟩ := hinv
  obtain ⟨hw1, hw2⟩ := (WFWindow_iff e).mp hwf
  refine ⟨hs, hc, hlen, hcn, ?_⟩
  rw [WFWindow_iff]
  refine ⟨fun hn => hw1 hn, ?_⟩
  intro st hst
  obtain ⟨hv, hr, hl⟩ := hw2 st hst
  exact ⟨hv, hr, fun pr hpr => hl pr (hsub pr hpr)⟩

theorem remove_local_post_inv [DecidableEq P] (e : Vibi S P) (nm : String)
    (hinv : EngineInv e) : EngineInv (e.remove_local_post nm) := by
  unfold remove_local_post
  rcases hg : mapGet e.local_posts nm with _ | post
  · exact hinv
  · dsimp only
    apply invalidate_inv
    split
    · exact EngineInv_lp_tml e _ _ (fun pr hpr => mem_mapDelete hpr) hinv
    · split_ifs <;> exact EngineInv_lp_tml e _ _ (fun pr hpr => mem_mapDelete hpr) hinv

theorem alp_core [DecidableEq P] (e : Vibi S P) (nm : String) (p : Post P)
    (hinv : EngineInv e) :
    EngineInv (if e.cache_enabled = true ∧
        ∃ st, e.snapshot_start_tick = some st ∧ e.official_tick p < st then e
      else Vibi.invalidate_from_tick { e with local_posts := mapSet e.local_posts nm p, timeline := mapSet e.timeline (e.official_tick p) { e.getBucketD (e.official_tick p) with loc := (e.getBucketD (e.official_tick p)).loc ++ [p] } } (e.official_tick p)) := by
  split_ifs with hbw
  · exact hinv
  · apply invalidate_inv
    obtain ⟨hs, hc, hlen, hcn, hwf⟩ := hinv
    obtain ⟨hw1, hw2⟩ := (WFWindow_iff e).mp hwf
    refine ⟨hs, hc, hlen, hcn, ?_⟩
    rw [WFWindow_iff]
    refine ⟨fun hn => hw1 hn, ?_⟩
    intro st hst
    have hst' : e.snapshot_start_tick = some st := hst
    obtain ⟨hv, hr, hl⟩ := hw2 st hst'
    refine ⟨hv, hr, ?_⟩
    intro pr hpr
    rcases mem_mapSet hpr with hm | heq
    · exact hl pr hm
    · subst heq
      show st ≤ e.official_tick p
      by_cases hcf : e.cache_enabled = false
      · have hnone := hcn hcf
        rw [hnone] at hst'
        cases hst'
      · have hcache := cache_true_of_ne_false e hcf
        have hnlt : ¬ (e.official_tick p < st) := fun hlt => hbw ⟨hcache, st, hst', hlt⟩
        omega

theorem add_local_post_inv [DecidableEq P] (e : Vibi S P) (nm : String) (p : Post P)
    (hinv : EngineInv e) : EngineInv (e.add_local_post nm p) := by
  unfold add_local_post
  dsimp only
  by_cases h1 : (mapGet e.local_posts nm).isSome = true
  · rw [if_pos h1]
    exact alp_core _ nm p (remove_local_post_inv e nm hinv)
  · rw [if_neg h1]
    exact alp_core e nm p hinv

theorem vpost_inv [DecidableEq P] (e : Vibi S P) (nm : String) (d : P)
    (hinv : EngineInv e) : EngineInv (e.vpost nm d) := by
  unfold vpost
  exact add_local_post_inv e nm _ hinv

theorem watch_handler_inv [DecidableEq P] (e : Vibi S P) (p : Post P)
    (hinv : EngineInv e) : EngineInv (e.watch_handler p) := by
  unfold watch_handler
  rcases p.name with _ | nm
  · exact add_remote_post_inv e p hinv
  · exact add_remote_post_inv _ p (remove_local_post_inv e nm hinv)

end Vibi

namespace Vibi

variable {S P : Type}

theorem initial_time_snd_inv (e : Vibi S P) (hinv : EngineInv e) :
    EngineInv (e.initial_time).2 := by
  unfold initial_time
  split
  · exact hinv
  · split
    · exact hinv
    · exact EngineInv_congr e _ rfl rfl rfl rfl rfl rfl rfl rfl rfl hinv

theorem initial_tick_snd_inv (e : Vibi S P) (hinv : EngineInv e) :
    EngineInv (e.initial_tick).2 := by
  unfold initial_tick
  split
  · exact hinv
  · split
    · next e' heq =>
      have h := initial_time_snd_inv e hinv
      rw [heq] at h
      exact h
    · next t e' heq =>
      have h := initial_time_snd_inv e hinv
      rw [heq] at h
      exact EngineInv_congr e' _ rfl rfl rfl rfl rfl rfl rfl rfl rfl h

theorem compute_state_at_snd_inv (e : Vibi S P) (at_tick : ℤ) (hinv : EngineInv e) :
    EngineInv (e.compute_state_at at_tick).2 := by
  unfold compute_state_at
  split
  · next e' heq =>
    have h := initial_tick_snd_inv e hinv
    rw [heq] at h
    exact h
  · next it e' heq =>
    have h := initial_tick_snd_inv e hinv
    rw [heq] at h
    dsimp only
    split_ifs with h1 h2
    · exact h
    · exact h
    · exact ensure_inv e' at_tick it h (fun _ => le_of_not_lt h1)

theorem compute_render_state_snd_inv (e : Vibi S P) (hinv : EngineInv e) :
    EngineInv (e.compute_render_state).2 := by
  unfold compute_render_state
  dsimp only
  exact compute_state_at_snd_inv _ _ (compute_state_at_snd_inv _ _ hinv)

end Vibi

/-- Every reachable engine state satisfies the invariant. -/
theorem reach_engine_inv {S P : Type} [DecidableEq P] (e : Vibi S P) (h : Reach e) :
    Vibi.EngineInv e := by
  induction h with
  | init room i ot op sm tr tol cache stride count ast pg =>
    exact Vibi.mkVibi_inv room i ot op sm tr tol cache stride count ast pg
  | watch e p _ ih => exact Vibi.watch_handler_inv e p ih
  | post e name data _ ih => exact Vibi.vpost_inv e name data ih
  | state_at e t _ ih => exact Vibi.compute_state_at_snd_inv e t ih
  | render e _ ih => exact Vibi.compute_render_state_snd_inv e ih
  | retime e τ rtt _ ih =>
    exact Vibi.EngineInv_congr e _ rfl rfl rfl rfl rfl rfl rfl rfl rfl ih

/-- C7: after any sequence of public operations from construction
(watch-handler ingestion, posting, state or render queries, clock and
RTT changes), the engine retains at most `snapshot_count` snapshots, and
once a window start is established every retained remote and local post
has official tick at or after the window start. -/
theorem claim_C7_window_invariant {S P : Type} [DecidableEq P] (e : Vibi S P) (h : Reach e) :
    (e.snapshots.length : ℤ) ≤ e.snapshot_count ∧
    ∀ st, e.snapshot_start_tick = some st →
      (∀ pr ∈ e.remote_posts, st ≤ e.official_tick pr.2) ∧
      (∀ pr ∈ e.local_posts, st ≤ e.official_tick pr.2) := by
  obtain ⟨hs, hc, hlen, hcn, hwf⟩ := reach_engine_inv e h
  refine ⟨hlen, ?_⟩
  intro st hst
  obtain ⟨hv, hr, hl⟩ := ((Vibi.WFWindow_iff e).mp hwf).2 st hst
  exact ⟨hr, hl⟩

/-- Witness for C7 on a concrete reachable engine: construct, ingest
`pA`, then query the state at tick 5 (which builds the snapshot
window). -/
theorem claim_C7_witness :
    (((((mkVibi "r" (0:ℤ) (fun s => s + 1) (fun (p : ℤ) s => s + p) (fun r _ => r) 24 300 true 8 256 5000 none).watch_handler pA).compute_state_at 5).2).snapshots.length : ℤ) ≤
      ((((mkVibi "r" (0:ℤ) (fun s => s + 1) (fun (p : ℤ) s => s + p) (fun r _ => r) 24 300 true 8 256 5000 none).watch_handler pA).compute_state_at 5).2).snapshot_count ∧
    ∀ st, ((((mkVibi "r" (0:ℤ) (fun s => s + 1) (fun (p : ℤ) s => s + p) (fun r _ => r) 24 300 true 8 256 5000 none).watch_handler pA).compute_state_at 5).2).snapshot_start_tick = some st →
      (∀ pr ∈ ((((mkVibi "r" (0:ℤ) (fun s => s + 1) (fun (p : ℤ) s => s + p) (fun r _ => r) 24 300 true 8 256 5000 none).watch_handler pA).compute_state_at 5).2).remote_posts,
        st ≤ ((((mkVibi "r" (0:ℤ) (fun s => s + 1) (fun (p : ℤ) s => s + p) (fun r _ => r) 24 300 true 8 256 5000 none).watch_handler pA).compute_state_at 5).2).official_tick pr.2) ∧
      (∀ pr ∈ ((((mkVibi "r" (0:ℤ) (fun s => s + 1) (fun (p : ℤ) s => s + p) (fun r _ => r) 24 300 true 8 256 5000 none).watch_handler pA).compute_state_at 5).2).local_posts,
        st ≤ ((((mkVibi "r" (0:ℤ) (fun s => s + 1) (fun (p : ℤ) s => s + p) (fun r _ => r) 24 300 true 8 256 5000 none).watch_handler pA).compute_state_at 5).2).official_tick pr.2) :=
  claim_C7_window_invariant _ (Reach.state_at _ 5 (Reach.watch _ pA
    (Reach.init "r" 0 (fun s => s + 1) (fun p s => s + p) (fun r _ => r) 24 300 true 8 256
      5000 none)))
